import Mathlib

/-!
Verification development for the fastdb embedded key-value store
(package `fastdb` and its append-only-file persister, package `persist`).

Go strings and byte slices are modelled as `List Char` (one `Char` per
byte; every byte the algorithms inspect is ASCII).  Go's
`map[string]map[int][]byte` index is modelled as an association list with
map-like (extensional) update operations; all mutations of the real index
go through exactly the operations modelled here.  Fallible operations
return `Except`/`Option`; the append-only file is the `List Char` of its
contents plus a closed flag.  File-system failures other than writing to a
closed file, background fsync timing, and locking are outside the model.
-/

set_option synthInstance.maxSize 1024

/-- Bytes of a Go string / byte slice. -/
abbrev Str := List Char

/-- The instruction keyword `set`. -/
def strSet : Str := ['s', 'e', 't']

/-- The instruction keyword `del`. -/
def strDel : Str := ['d', 'e', 'l']

/-- Prepend a character to the first chunk of a split result
(creating the chunk when there is none). -/
def consHead (c : Char) : List Str → List Str
  | [] => [[c]]
  | l :: ls => (c :: l) :: ls

/-- Go `strings.Split(s, string(ch))`: split on every occurrence of `ch`;
always returns at least one (possibly empty) chunk. -/
def splitOnChar (ch : Char) : Str → List Str
  | [] => [[]]
  | c :: t => if c = ch then [] :: splitOnChar ch t else consHead c (splitOnChar ch t)

/-- Split on newlines, as `strings.Split(s, "\n")` does. -/
def splitNL (s : Str) : List Str := splitOnChar '\n' s

/-- Newline-separated tokens of `bufio.Scanner` with the default line
splitter, before carriage-return stripping: like `splitNL` but a trailing
newline produces no final empty token and an empty input produces no
token. -/
def scanTokens : Str → List Str
  | [] => []
  | c :: t => if c = '\n' then [] :: scanTokens t else consHead c (scanTokens t)

/-- The `dropCR` step of `bufio.ScanLines`: one carriage return standing
immediately before the end of the token is stripped. -/
def dropCR : Str → Str
  | [] => []
  | [c] => if c = '\r' then [] else [c]
  | a :: b :: t => a :: dropCR (b :: t)

/-- Whether a byte sequence ends in a carriage return. -/
def endsCR : Str → Bool
  | [] => false
  | [c] => c = '\r'
  | _ :: b :: t => endsCR (b :: t)

/-- Lines produced by `bufio.Scanner` with the default `ScanLines`
splitter: the newline-separated tokens, each with one optional trailing
carriage return stripped. -/
def linesOf (s : Str) : List Str := (scanTokens s).map dropCR

/-- Decimal digit character of a value below ten. -/
def digitChar (n : Nat) : Char :=
  if n = 0 then '0' else if n = 1 then '1' else if n = 2 then '2'
  else if n = 3 then '3' else if n = 4 then '4' else if n = 5 then '5'
  else if n = 6 then '6' else if n = 7 then '7' else if n = 8 then '8'
  else '9'

/-- Numeric value of a decimal digit character, `none` on any other character. -/
def digitVal (c : Char) : Option Nat :=
  if c = '0' then some 0 else if c = '1' then some 1 else if c = '2' then some 2
  else if c = '3' then some 3 else if c = '4' then some 4 else if c = '5' then some 5
  else if c = '6' then some 6 else if c = '7' then some 7 else if c = '8' then some 8
  else if c = '9' then some 9 else none

/-- Whether a character is a decimal digit. -/
def isDigitCh (c : Char) : Bool := (digitVal c).isSome

/-- Decimal rendering with explicit fuel (structural recursion so that the
kernel can evaluate it); the fuel is an upper bound on the rendered number. -/
def toDecFuel : Nat → Nat → Str
  | 0, _ => []
  | fuel + 1, n =>
    if n < 10 then [digitChar n] else toDecFuel fuel (n / 10) ++ [digitChar (n % 10)]

/-- Decimal rendering of a natural number, most significant digit first. -/
def toDec (n : Nat) : Str := toDecFuel (n + 1) n

/-- Go `strconv.Itoa`. -/
def itoa (k : Int) : Str :=
  if k < 0 then '-' :: toDec (-k).toNat else toDec k.toNat

/-- Value of a nonempty all-digit string, most significant digit first. -/
def digitsVal (s : Str) : Nat :=
  s.foldl (fun a c => a * 10 + (digitVal c).getD 0) 0

/-- Parse a nonempty run of decimal digits, `none` otherwise. -/
def parseDigits (s : Str) : Option Nat :=
  if s ≠ [] ∧ s.all isDigitCh then some (digitsVal s) else none

/-- Go `strconv.Atoi`: optional sign followed by decimal digits.
(The Go function also range-checks against the machine int; keys written
by the store always fit, so the model leaves integers unbounded.) -/
def atoi (s : Str) : Option Int :=
  match s with
  | [] => none
  | c :: t =>
    if c = '-' then
      match parseDigits t with
      | none => none
      | some n => some (-(n : Int))
    else if c = '+' then
      match parseDigits t with
      | none => none
      | some n => some ((n : Int))
    else
      match parseDigits (c :: t) with
      | none => none
      | some n => some ((n : Int))

/-- Go `strings.ReplaceAll(value, "\n", "\\n")`: escape newlines before writing. -/
def escape : Str → Str
  | [] => []
  | c :: t => if c = '\n' then '\\' :: 'n' :: escape t else c :: escape t

/-- Go `strings.ReplaceAll(value, "\\n", "\n")`: unescape newlines on read
(left to right, non-overlapping). -/
def unescape : Str → Str
  | [] => []
  | [c] => [c]
  | c :: d :: t =>
    if c = '\\' ∧ d = 'n' then '\n' :: unescape t else c :: unescape (d :: t)

/-- Whether `pat` occurs at the start of `s`. -/
def leadsWith : Str → Str → Bool
  | [], _ => true
  | _ :: _, [] => false
  | p :: ps, c :: cs => p = c && leadsWith ps cs

/-- Go `strings.Contains(s, pat)`. -/
def goContains (s : Str) (pat : Str) : Bool :=
  match s with
  | [] => leadsWith pat []
  | _ :: t => leadsWith pat s || goContains t pat

/-- Split a string at its last underscore: `some (before, after)` when an
underscore exists, `none` otherwise.  Models `strings.LastIndex(key, "_")`
together with the two slices taken around it. -/
def lastSplitUnd : Str → Option (Str × Str)
  | [] => none
  | c :: t =>
    match lastSplitUnd t with
    | some (b, s) => some (c :: b, s)
    | none => if c = '_' then some ([], t) else none

/-- The persister's `parseBucketAndKey`: split the key field at its last
underscore and parse the suffix with `Atoi`. -/
def parseBucketAndKey (key : Str) : Option (Str × Int) :=
  match lastSplitUnd key with
  | none => none
  | some (b, s) =>
    match atoi s with
    | none => none
    | some k => some (b, k)

/-- The corruption heuristic inside `handleDelInstruction`: a del key that
looks like JSON or contains an instruction keyword is rejected. -/
def hasJsonContent (key : Str) : Bool :=
  goContains key ['{'] || goContains key ['}'] ||
  goContains key ['"', ':', '"'] || goContains key strSet ||
  goContains key strDel || goContains key ['"']

/-- Key-field check of `validateData`: at least two underscore-separated
parts and a numeric last part. -/
def checkKey (k : Str) : Bool :=
  let kp := splitOnChar '_' k
  decide (2 ≤ kp.length) && (atoi ((kp.getLast?).getD [])).isSome

/-- The persister's `validateData`: grammar check of one formatted entry. -/
def validateData (lines : Str) : Bool :=
  let parts := splitNL lines
  let head := parts.headD []
  if head = strDel then
    (parts.length == 3) && (parts.getD 2 ['x']).isEmpty && checkKey (parts.getD 1 [])
  else if head = strSet then
    (parts.length == 4) && (parts.getD 3 ['x']).isEmpty && checkKey (parts.getD 1 [])
  else false

/-- The entry string `scanAndValidateFile` assembles for a `set` record. -/
def mkSet (k v : Str) : Str := strSet ++ '\n' :: k ++ '\n' :: v ++ ['\n']

/-- The entry string `scanAndValidateFile` assembles for a `del` record. -/
def mkDel (k : Str) : Str := strDel ++ '\n' :: k ++ ['\n']

/-- The store's `formatCommand`: keyword line, `bucket_key` line, and an
escaped value line that is omitted when the value is empty. -/
def formatCommand (command : Str) (bucket : Str) (key : Int) (value : Str) : Str :=
  command ++ '\n' :: bucket ++ '_' :: itoa key ++ '\n' ::
    (if value = [] then [] else escape value ++ ['\n'])

example : splitNL ['a', '\n', 'b', '\n'] = [['a'], ['b'], []] := by decide
example : linesOf ['a', '\n', 'b', '\n'] = [['a'], ['b']] := by decide
example : linesOf [] = [] := by decide
example : linesOf ['a', '\r', '\n', 'b', '\r'] = [['a'], ['b']] := by decide
example : itoa 103 = ['1', '0', '3'] := by decide
example : itoa (-7) = ['-', '7'] := by decide
example : atoi ['-', '4', '2'] = some (-42) := by decide
example : atoi ['7', 'x'] = none := by decide
example : unescape (escape ['a', '\n', 'b']) = ['a', '\n', 'b'] := by decide
example : unescape ['\\', '\\', 'n'] = ['\\', '\n'] := by decide
example : goContains ['s', 'e', 't', 'u', 'p'] strSet = true := by decide
example : lastSplitUnd ['a', '_', 'b', '_', '5'] = some (['a', '_', 'b'], ['5']) := by decide
example : parseBucketAndKey ['a', '_', 'b', '_', '5'] = some (['a', '_', 'b'], 5) := by decide
example : validateData (mkSet ['b', '_', '1'] ['v']) = true := by decide
example : validateData (mkSet ['b', '_', '1'] []) = true := by decide
example : validateData (mkDel ['b', '_', '1']) = true := by decide
example : validateData (formatCommand strSet ['b'] 1 ['v']) = true := by decide
example : validateData (formatCommand strSet ['b'] 1 []) = false := by decide
example : validateData (formatCommand strSet ['x', '_', '1', '\n', 'y'] 5 []) = true := by decide
example : validateData (formatCommand strDel ['b'] 2 []) = true := by decide

/-! ## The in-memory index

Go's `map[string]map[int][]byte` is modelled as an association list with
extensional (filter-based) update operations.  Every mutation of the real
index — in `DB.Set`, `DB.Del`, `setBucketAndKey` and
`handleDelInstruction` — is one of `setKV` and `delCore` below. -/

/-- Decidable equality of `Except` outcomes, so that concrete runs of the
modelled operations can be checked by `decide`. -/
instance {e a : Type} [DecidableEq e] [DecidableEq a] : DecidableEq (Except e a) := by
  intro x y
  cases x <;> cases y
  case error.error u v =>
    exact if h : u = v then .isTrue (by rw [h]) else .isFalse (by intro hh; cases hh; exact h rfl)
  case error.ok u v => exact .isFalse (by intro hh; cases hh)
  case ok.error u v => exact .isFalse (by intro hh; cases hh)
  case ok.ok u v =>
    exact if h : u = v then .isTrue (by rw [h]) else .isFalse (by intro hh; cases hh; exact h rfl)

/-- One bucket: integer key to value. -/
abbrev BMap := List (Int × Str)

/-- The full index: bucket name to bucket. -/
abbrev Index := List (Str × BMap)

/-- Lookup of `m[k]` inside a bucket. -/
def lookupK (m : BMap) (k : Int) : Option Str :=
  match m with
  | [] => none
  | p :: t => if p.1 = k then some p.2 else lookupK t k

/-- Lookup of `keys[bucket]`. -/
def lookupB (idx : Index) (b : Str) : Option BMap :=
  match idx with
  | [] => none
  | p :: t => if p.1 = b then some p.2 else lookupB t b

/-- Map update `m[k] = v` inside a bucket. -/
def setIn (m : BMap) (k : Int) (v : Str) : BMap :=
  (k, v) :: m.filter (fun p => p.1 ≠ k)

/-- Map update `keys[b] = m`. -/
def updateB (idx : Index) (b : Str) (m : BMap) : Index :=
  (b, m) :: idx.filter (fun p => p.1 ≠ b)

/-- Map removal `delete(keys, b)`. -/
def eraseB (idx : Index) (b : Str) : Index :=
  idx.filter (fun p => p.1 ≠ b)

/-- The index mutation of a `set`: create the bucket when absent, then
store `keys[bucket][key] = value`. -/
def setKV (idx : Index) (b : Str) (k : Int) (v : Str) : Index :=
  let m := (lookupB idx b).getD []
  updateB idx b (setIn m k v)

/-- The index mutation of a `del` (`handleDelInstruction` and the found
branch of `DB.Del`): when the bucket exists, delete the key, and delete
the bucket itself when it becomes empty. -/
def delCore (idx : Index) (b : Str) (k : Int) : Index :=
  match lookupB idx b with
  | none => idx
  | some m =>
    let m2 := m.filter (fun p => p.1 ≠ k)
    if m2 = [] then eraseB idx b else updateB idx b m2

/-- Lookup of `keys[bucket][key]` (the heart of `DB.Get`). -/
def getKV (idx : Index) (b : Str) (k : Int) : Option Str :=
  match lookupB idx b with
  | none => none
  | some m => lookupK m k

/-- Total number of records of the index, as `Info` counts them. -/
def sizeIdx (idx : Index) : Nat :=
  (idx.map (fun p => p.2.length)).sum

/-- All records of the index as (bucket, (key, value)) triples, in the
iteration order of the model. -/
def flatRecords (idx : Index) : List (Str × (Int × Str)) :=
  idx.flatMap (fun p => p.2.map (fun kv => (p.1, kv)))

/-! ## The append-only-file persister (`persist.AOF`) -/

/-- State of the append-only file: contents plus closed flag. -/
structure AOF where
  content : Str
  closed : Bool
deriving DecidableEq, Repr

/-- Failure modes of an `AOF.Write`: grammar rejection by `validateData`,
or an I/O failure (writing to a closed file). -/
inductive WErr where
  | invalid : WErr
  | io : WErr
deriving DecidableEq, Repr

/-- The persister's `Write`: validate the formatted entry, then append it
to the open file (failing when the file is closed). -/
def aofWrite (a : AOF) (lines : Str) : Except WErr AOF :=
  if validateData lines then
    if a.closed then .error .io
    else .ok { a with content := a.content ++ lines }
  else .error .invalid

/-- Errors raised by `fileReader`/`processInstruction`/`handleSetInstruction`/
`handleDelInstruction` during replay, with the line counts the code reports. -/
inductive RErr where
  | incomplete (n : Nat) : RErr
  | incompleteSet (n : Nat) : RErr
  | badKeySet (key : Str) : RErr
  | delFormat (key : Str) (n : Nat) : RErr
  | badKeyDel (key : Str) (n : Nat) : RErr
  | wrongInstr (instr : Str) (n : Nat) : RErr
deriving DecidableEq, Repr

/-- Replay of the scanned log lines into an index, following `fileReader`:
`n` is the running line count.  A `set` consumes a key line and a value
line (unescaping the value into `setKV`); a `del` consumes a key line,
rejects JSON-looking keys, and applies `delCore`. -/
def replay : List Str → Index → Nat → Except RErr Index
  | [], idx, _ => .ok idx
  | [_], _, n => .error (.incomplete (n + 1))
  | i :: k :: rest2, idx, n =>
    if i = strSet then
      match rest2 with
      | [] => .error (.incompleteSet (n + 1))
      | v :: rest3 =>
        match parseBucketAndKey k with
        | none => .error (.badKeySet k)
        | some bk => replay rest3 (setKV idx bk.1 bk.2 (unescape v)) (n + 3)
    else if i = strDel then
      if hasJsonContent k then .error (.delFormat k (n + 1))
      else
        match parseBucketAndKey k with
        | none => .error (.badKeyDel k (n + 1))
        | some bk => replay rest2 (delCore idx bk.1 bk.2) (n + 2)
    else .error (.wrongInstr i (n + 1))

/-- The corruption scan `scanAndValidateFile`: walk the scanned lines,
reassemble each record (reading past end of file yields empty lines but
still counts them, as `scanner.Text()` does after a failed `Scan`), and
check it with `validateData`; on failure report the current line count. -/
def scanValidate : List Str → Nat → Except Nat Unit
  | [], _ => .ok ()
  | l :: rest, n =>
    if l = strSet then
      match rest with
      | [] => if validateData (mkSet [] []) then scanValidate [] (n + 3) else .error (n + 3)
      | [k] => if validateData (mkSet k []) then scanValidate [] (n + 3) else .error (n + 3)
      | k :: v :: rest3 =>
        if validateData (mkSet k v) then scanValidate rest3 (n + 3) else .error (n + 3)
    else if l = strDel then
      match rest with
      | [] => if validateData (mkDel []) then scanValidate [] (n + 2) else .error (n + 2)
      | k :: rest2 =>
        if validateData (mkDel k) then scanValidate rest2 (n + 2) else .error (n + 2)
    else .error (n + 1)

/-- A well-formed log: a sequence of complete `set`/`del` records, each
passing `validateData` — the protocol grammar. -/
def validLogB : List Str → Bool
  | [] => true
  | i :: rest =>
    if i = strSet then
      match rest with
      | k :: v :: rest2 => validateData (mkSet k v) && validLogB rest2
      | _ => false
    else if i = strDel then
      match rest with
      | k :: rest2 => validateData (mkDel k) && validLogB rest2
      | [] => false
    else false

/-- Failure modes of `OpenPersister`: the corruption error of
`checkFileForCorruption` (with the offending line number) or a replay
error from `fileReader`. -/
inductive OErr where
  | corrupted (n : Nat) : OErr
  | replayFail (e : RErr) : OErr
deriving DecidableEq, Repr

/-- Whether an open outcome is the corruption error. -/
def isCorrupted (r : Except OErr (AOF × Index)) : Bool :=
  match r with
  | .error (.corrupted _) => true
  | _ => false

/-- The persister's `OpenPersister` on a file with the given contents:
run the corruption scan, then replay the file into a fresh index; on
success the file is open with its contents intact.  Path handling,
directory creation and the background flush task are outside the model. -/
def openPersister (c : Str) : Except OErr (AOF × Index) :=
  match scanValidate (linesOf c) 0 with
  | .error n => .error (.corrupted n)
  | .ok _ =>
    match replay (linesOf c) [] 0 with
    | .error e => .error (.replayFail e)
    | .ok idx => .ok ({ content := c, closed := false }, idx)

/-! ## The store (`fastdb.DB`) -/

/-- The store: an optional persister (absent in `:memory:` mode) and the
in-memory index. -/
structure DB where
  aof : Option AOF
  keys : Index
deriving DecidableEq, Repr

/-- Errors surfaced by the store's mutating operations. -/
inductive DBErr where
  | emptyBucket : DBErr
  | negKey : DBErr
  | wErr (e : WErr) : DBErr
deriving DecidableEq, Repr

/-- The store's `validateSetInput`: reject empty bucket names and negative keys. -/
def validateSetInput (bucket : Str) (key : Int) : Option DBErr :=
  if bucket = [] then some .emptyBucket
  else if key < 0 then some .negKey
  else none

/-- The store's `Set`: validate the input, then (file mode) append the
formatted `set` entry before touching the index, then store the record.
Returns the updated store and an optional error. -/
def DB.set (db : DB) (bucket : Str) (key : Int) (value : Str) : DB × Option DBErr :=
  match validateSetInput bucket key with
  | some e => (db, some e)
  | none =>
    match db.aof with
    | some a =>
      match aofWrite a (formatCommand strSet bucket key value) with
      | .error e => (db, some (.wErr e))
      | .ok a2 => ({ aof := some a2, keys := setKV db.keys bucket key value }, none)
    | none => ({ db with keys := setKV db.keys bucket key value }, none)

/-- The store's `Del`: a missing bucket or key yields `(false, nil)`;
otherwise (file mode) append the formatted `del` entry first, and only on
success remove the record (and an emptied bucket).  Returns the updated
store, the found flag and an optional error. -/
def DB.del (db : DB) (bucket : Str) (key : Int) : DB × Bool × Option DBErr :=
  match lookupB db.keys bucket with
  | none => (db, false, none)
  | some m =>
    match lookupK m key with
    | none => (db, false, none)
    | some _ =>
      match db.aof with
      | some a =>
        match aofWrite a (formatCommand strDel bucket key []) with
        | .error e => (db, false, some (.wErr e))
        | .ok a2 => ({ aof := some a2, keys := delCore db.keys bucket key }, true, none)
      | none => ({ db with keys := delCore db.keys bucket key }, true, none)

/-- The store's `Close`: closing the persister fails when the file is
already closed (its final `Sync` fails); on success the index is cleared.
The file contents are untouched either way. -/
def DB.close (db : DB) : DB × Option DBErr :=
  match db.aof with
  | some a =>
    if a.closed then (db, some (.wErr .io))
    else ({ aof := some { a with closed := true }, keys := [] }, none)
  | none => ({ aof := none, keys := [] }, none)

/-- Contents of the store's log file ([] in memory mode). -/
def contentOf (db : DB) : Str :=
  match db.aof with
  | some a => a.content
  | none => []

/-- Failure modes of `AOF.Defrag`. -/
inductive DFErr where
  | closeFail : DFErr
  | writeFail (e : WErr) : DFErr
deriving DecidableEq, Repr

/-- The `writeFile` loop over one bucket: one `Write` per record, with the
raw (unescaped) stored value. -/
def writeBucket (a : AOF) (b : Str) : BMap → Except WErr AOF
  | [] => .ok a
  | kv :: t =>
    match aofWrite a (strSet ++ '\n' :: b ++ '_' :: itoa kv.1 ++ '\n' :: kv.2 ++ ['\n']) with
    | .error e => .error e
    | .ok a2 => writeBucket a2 b t

/-- The `writeFile` loop over all buckets. -/
def writeRecs (a : AOF) : Index → Except WErr AOF
  | [] => .ok a
  | bm :: rest =>
    match writeBucket a bm.1 bm.2 with
    | .error e => .error e
    | .ok a2 => writeRecs a2 rest

/-- The persister's `Defrag`: close the live file (failing when already
closed), back it up, recreate it empty and re-emit one `set` entry per
record of the snapshot through `Write`. -/
def aofDefrag (a : AOF) (keys : Index) : Except DFErr AOF :=
  if a.closed then .error .closeFail
  else
    match writeRecs { content := [], closed := false } keys with
    | .error e => .error (.writeFail e)
    | .ok a2 => .ok a2

/-- Outcome of the store's `Defrag`; `nilDeref` is the run-time panic of
calling the persister through a nil pointer. -/
inductive DefragResult where
  | nilDeref : DefragResult
  | fail (e : DFErr) : DefragResult
  | ok (db : DB) : DefragResult
deriving DecidableEq, Repr

/-- The store's `Defrag`: it calls `fdb.aof.Defrag(fdb.keys)` without a
nil check, so a memory-only store dereferences a nil pointer and panics. -/
def DB.defrag (db : DB) : DefragResult :=
  match db.aof with
  | none => .nilDeref
  | some a =>
    match aofDefrag a db.keys with
    | .error e => .fail e
    | .ok a2 => .ok { aof := some a2, keys := db.keys }

/-- The store returned by `Open(":memory:", syncTime)`: no persister,
empty index. -/
def memoryDB : DB := { aof := none, keys := [] }

/-- The store returned by opening a fresh (empty) log file. -/
def initFileDB : DB := { aof := some { content := [], closed := false }, keys := [] }

/-- One caller-level mutation. -/
inductive Op where
  | set (bucket : Str) (key : Int) (value : Str) : Op
  | del (bucket : Str) (key : Int) : Op
deriving DecidableEq, Repr

/-- Apply one operation to the store, keeping only the error component of
`Del`'s result. -/
def applyOp (db : DB) : Op → DB × Option DBErr
  | .set b k v => DB.set db b k v
  | .del b k =>
    let r := DB.del db b k
    (r.1, r.2.2)

/-- Apply a sequence of operations, stopping at the first error. -/
def applyOps : DB → List Op → DB × Option DBErr
  | db, [] => (db, none)
  | db, op :: t =>
    match applyOp db op with
    | (db2, none) => applyOps db2 t
    | (db2, some e) => (db2, some e)

/-- Conditions under which a successful mutation is faithfully replayed:
a stored value must not contain the literal two-character sequence
backslash-n and must not end in a carriage return, a stored bucket name
must not contain a newline, and a deleted record's log key field must
not look like JSON or contain an instruction keyword. -/
def okOp : Op → Bool
  | .set b _ v => !goContains v ['\\', 'n'] && decide ('\n' ∉ b) && !endsCR v
  | .del b k => !hasJsonContent (b ++ '_' :: itoa k)

example : openPersister [] = .ok ({ content := [], closed := false }, []) := by decide
example :
    openPersister ['s', 'e', 't', '\n', 'b', '_', '1', '\n', 'v', '\n'] =
      .ok (AOF.mk ['s', 'e', 't', '\n', 'b', '_', '1', '\n', 'v', '\n'] false,
        [(['b'], [(1, ['v'])])]) := by decide
example : openPersister ['z', 'z', '\n'] = .error (.corrupted 1) := by decide
example :
    openPersister ['s', 'e', 't', '\n', 'b', '_', '1', '\n'] =
      .error (.replayFail (.incompleteSet 1)) := by decide
example :
    (applyOps initFileDB [.set ['b'] 1 ['v'], .del ['b'] 1]).1.keys = [] := by decide
example :
    (applyOps initFileDB [.set ['b'] 1 ['v'], .del ['b'] 1]).1 =
      DB.mk (some (AOF.mk
        ['s', 'e', 't', '\n', 'b', '_', '1', '\n', 'v', '\n',
         'd', 'e', 'l', '\n', 'b', '_', '1', '\n'] false)) [] := by decide
example : (DB.set initFileDB ['b'] (-1) ['v']).2 = some .negKey := by decide
example : (DB.set memoryDB ['b'] 1 []).2 = none := by decide
example : (DB.set initFileDB ['b'] 1 []).2 = some (.wErr .invalid) := by decide
example : (DB.set initFileDB ['x', '_', '1', '\n', 'y'] 5 []).2 = none := by decide
example : DB.defrag memoryDB = .nilDeref := by decide
example :
    DB.defrag (DB.mk (some (AOF.mk ['j', '\n'] false)) [(['b'], [(1, ['x'])])]) =
      .ok (DB.mk (some (AOF.mk ['s', 'e', 't', '\n', 'b', '_', '1', '\n', 'x', '\n'] false))
        [(['b'], [(1, ['x'])])]) := by decide

/-! ## Basic lemmas about the string primitives -/

theorem digit_spec (c : Char) (h : isDigitCh c = true) :
    c ≠ '\n' ∧ c ≠ '_' ∧ c ≠ '-' ∧ c ≠ '+' ∧ c ≠ '\\' ∧ c ≠ '\r' := by
  unfold isDigitCh digitVal at h
  split_ifs at h with h0 h1 h2 h3 h4 h5 h6 h7 h8 h9 <;> first | (subst_vars; decide) | simp at h

theorem digitChar_isDigit : ∀ d, d < 10 → isDigitCh (digitChar d) = true := by decide

theorem digitVal_digitChar : ∀ d, d < 10 → digitVal (digitChar d) = some d := by decide

theorem toDecFuel_digits :
    ∀ fuel n, n < fuel → ∀ c ∈ toDecFuel fuel n, isDigitCh c = true := by
  intro fuel
  induction fuel with
  | zero => intro n h; omega
  | succ f ih =>
    intro n _ c hc
    by_cases h10 : n < 10
    · simp only [toDecFuel, if_pos h10, List.mem_singleton] at hc
      exact hc ▸ digitChar_isDigit n h10
    · simp only [toDecFuel, if_neg h10, List.mem_append, List.mem_singleton] at hc
      rcases hc with hc | hc
      · exact ih (n / 10) (by omega) c hc
      · exact hc ▸ digitChar_isDigit (n % 10) (Nat.mod_lt n (by omega))

theorem toDecFuel_ne_nil : ∀ fuel n, n < fuel → toDecFuel fuel n ≠ [] := by
  intro fuel n h
  cases fuel with
  | zero => omega
  | succ f =>
    by_cases h10 : n < 10 <;> simp [toDecFuel, h10]

theorem digitsVal_append_one (A : Str) (c : Char) :
    digitsVal (A ++ [c]) = digitsVal A * 10 + (digitVal c).getD 0 := by
  simp [digitsVal, List.foldl_append]

theorem digitsVal_toDecFuel : ∀ fuel n, n < fuel → digitsVal (toDecFuel fuel n) = n := by
  intro fuel
  induction fuel with
  | zero => intro n h; omega
  | succ f ih =>
    intro n hn
    by_cases h10 : n < 10
    · simp [toDecFuel, h10, digitsVal, digitVal_digitChar n h10]
    · have hd : n / 10 < f := by omega
      simp only [toDecFuel, if_neg h10, digitsVal_append_one, ih (n / 10) hd,
        digitVal_digitChar (n % 10) (Nat.mod_lt n (by omega))]
      simp only [Option.getD_some]
      omega

theorem parseDigits_toDec (n : Nat) : parseDigits (toDec n) = some n := by
  have hne := toDecFuel_ne_nil (n + 1) n (by omega)
  have hall : (toDecFuel (n + 1) n).all isDigitCh = true := by
    rw [List.all_eq_true]
    exact fun c hc => toDecFuel_digits (n + 1) n (by omega) c hc
  simp [parseDigits, toDec, hne, hall, digitsVal_toDecFuel (n + 1) n (by omega)]

theorem toDec_chars (n : Nat) : ∀ c ∈ toDec n, isDigitCh c = true :=
  fun c hc => toDecFuel_digits (n + 1) n (by omega) c hc

theorem itoa_chars (k : Int) : ∀ c ∈ itoa k, c ≠ '_' ∧ c ≠ '\n' ∧ c ≠ '\r' := by
  intro c hc
  unfold itoa at hc
  split at hc
  · rcases List.mem_cons.mp hc with hc | hc
    · subst hc; exact ⟨by decide, by decide, by decide⟩
    · have := digit_spec c (toDec_chars _ c hc)
      exact ⟨this.2.1, this.1, this.2.2.2.2.2⟩
  · have := digit_spec c (toDec_chars _ c hc)
    exact ⟨this.2.1, this.1, this.2.2.2.2.2⟩

theorem atoi_itoa (k : Int) : atoi (itoa k) = some k := by
  by_cases hneg : k < 0
  · rw [itoa, if_pos hneg]
    simp only [atoi]
    rw [if_pos trivial, parseDigits_toDec]
    show some (-(((-k).toNat : Nat) : Int)) = some k
    simp only [Option.some.injEq]
    omega
  · obtain ⟨c, t, hct⟩ :=
      List.exists_cons_of_ne_nil (toDecFuel_ne_nil (k.toNat + 1) k.toNat (by omega))
    have hmem : c ∈ toDec k.toNat := by
      rw [toDec, hct]; exact List.mem_cons_self c t
    have hspec := digit_spec c (toDec_chars k.toNat c hmem)
    have h1 : itoa k = toDec k.toNat := by rw [itoa, if_neg hneg]
    have h2 : toDec k.toNat = c :: t := by rw [toDec, hct]
    rw [h1, h2]
    simp only [atoi]
    rw [if_neg hspec.2.2.1, if_neg hspec.2.2.2.1, ← h2, parseDigits_toDec]
    have hk : ((k.toNat : Nat) : Int) = k := by omega
    simp [hk]

theorem split_ne_nil (ch : Char) (s : Str) : splitOnChar ch s ≠ [] := by
  induction s with
  | nil => simp [splitOnChar]
  | cons c t ih =>
    by_cases h : c = ch
    · simp [splitOnChar, h]
    · simp only [splitOnChar, if_neg h]
      cases hs : splitOnChar ch t with
      | nil => exact absurd hs ih
      | cons l ls => simp [consHead]

theorem consHead_length {l : List Str} (c : Char) (h : l ≠ []) :
    (consHead c l).length = l.length := by
  cases l with
  | nil => exact absurd rfl h
  | cons x xs => simp [consHead]

theorem split_length (ch : Char) (s : Str) :
    (splitOnChar ch s).length = s.count ch + 1 := by
  induction s with
  | nil => simp [splitOnChar]
  | cons c t ih =>
    by_cases h : c = ch
    · subst h
      simp [splitOnChar, List.count_cons, ih]
    · rw [splitOnChar, if_neg h, consHead_length c (split_ne_nil ch t), ih,
        List.count_cons]
      have hcc : (c == ch) = false := by
        rw [beq_eq_false_iff_ne]
        exact h
      rw [hcc]
      simp

theorem consHead_cons (c : Char) (l : Str) (ls : List Str) :
    consHead c (l :: ls) = (c :: l) :: ls := rfl

theorem split_append_sep (ch : Char) (A R : Str) (h : ch ∉ A) :
    splitOnChar ch (A ++ ch :: R) = A :: splitOnChar ch R := by
  induction A with
  | nil => simp [splitOnChar]
  | cons c t ih =>
    have hc : c ≠ ch := fun hh => h (hh ▸ List.mem_cons_self c t)
    have ht : ch ∉ t := fun hh => h (List.mem_cons_of_mem c hh)
    show splitOnChar ch (c :: (t ++ ch :: R)) = (c :: t) :: splitOnChar ch R
    simp only [splitOnChar]
    rw [if_neg hc, ih ht, consHead_cons]

theorem split_no_sep (ch : Char) (A : Str) (h : ch ∉ A) : splitOnChar ch A = [A] := by
  induction A with
  | nil => rfl
  | cons c t ih =>
    have hc : c ≠ ch := fun hh => h (hh ▸ List.mem_cons_self c t)
    have ht : ch ∉ t := fun hh => h (List.mem_cons_of_mem c hh)
    simp only [splitOnChar, if_neg hc, ih ht, consHead_cons]

theorem scanTokens_ne_nil (s : Str) (h : s ≠ []) : scanTokens s ≠ [] := by
  cases s with
  | nil => exact absurd rfl h
  | cons c t =>
    by_cases hc : c = '\n'
    · simp [scanTokens, hc]
    · simp only [scanTokens, if_neg hc]
      cases hs : scanTokens t with
      | nil => simp [consHead]
      | cons l ls => simp [consHead]

theorem consHead_append (c : Char) (X Y : List Str) (h : X ≠ []) :
    consHead c (X ++ Y) = consHead c X ++ Y := by
  cases X with
  | nil => exact absurd rfl h
  | cons l ls => simp [consHead]

theorem scanTokens_entry (l r : Str) (h : '\n' ∉ l) :
    scanTokens (l ++ '\n' :: r) = l :: scanTokens r := by
  induction l with
  | nil => simp [scanTokens]
  | cons c t ih =>
    have hc : c ≠ '\n' := fun hh => h (hh ▸ List.mem_cons_self c t)
    have ht : '\n' ∉ t := fun hh => h (List.mem_cons_of_mem c hh)
    show scanTokens (c :: (t ++ '\n' :: r)) = (c :: t) :: scanTokens r
    simp only [scanTokens]
    rw [if_neg hc, ih ht, consHead_cons]

theorem scanTokens_append_term (A B : Str) :
    scanTokens ((A ++ ['\n']) ++ B) = scanTokens (A ++ ['\n']) ++ scanTokens B := by
  induction A with
  | nil => simp [scanTokens]
  | cons c t ih =>
    by_cases hc : c = '\n'
    · subst hc
      show scanTokens ('\n' :: ((t ++ ['\n']) ++ B)) = scanTokens ('\n' :: (t ++ ['\n'])) ++ scanTokens B
      simp only [scanTokens]
      rw [if_pos trivial, if_pos trivial, ih]
      rfl
    · have hne : scanTokens (t ++ ['\n']) ≠ [] := scanTokens_ne_nil _ (by simp)
      show scanTokens (c :: ((t ++ ['\n']) ++ B)) = scanTokens (c :: (t ++ ['\n'])) ++ scanTokens B
      simp only [scanTokens]
      rw [if_neg hc, if_neg hc, ih, consHead_append c _ _ hne]

theorem endsCR_cons (c : Char) (t : Str) (h : t ≠ []) : endsCR (c :: t) = endsCR t := by
  cases t with
  | nil => exact absurd rfl h
  | cons b t2 => simp only [endsCR]

theorem dropCR_id (l : Str) (h : endsCR l = false) : dropCR l = l := by
  induction l with
  | nil => rfl
  | cons a t ih =>
    cases t with
    | nil =>
      simp only [endsCR] at h
      simp only [dropCR]
      rw [if_neg (of_decide_eq_false h)]
    | cons b t2 =>
      have h2 : endsCR (b :: t2) = false := by
        rw [← endsCR_cons a (b :: t2) (by simp)]
        exact h
      simp only [dropCR]
      rw [ih h2]

theorem endsCR_append (A B : Str) (h : B ≠ []) : endsCR (A ++ B) = endsCR B := by
  induction A with
  | nil => rfl
  | cons c t ih =>
    have hne : t ++ B ≠ [] := fun hh => h (List.append_eq_nil.mp hh).2
    rw [List.cons_append, endsCR_cons c _ hne, ih]

theorem endsCR_of_not_mem (l : Str) (h : '\r' ∉ l) : endsCR l = false := by
  induction l with
  | nil => rfl
  | cons c t ih =>
    cases t with
    | nil =>
      have hc : c ≠ '\r' := fun hh => h (by simp [hh])
      simp [endsCR, hc]
    | cons b t2 =>
      rw [endsCR_cons c _ (by simp)]
      exact ih (fun hm => h (List.mem_cons_of_mem c hm))

theorem escape_no_nl (v : Str) : '\n' ∉ escape v := by
  induction v with
  | nil => simp [escape]
  | cons c t ih =>
    by_cases hc : c = '\n'
    · subst hc
      simp only [escape, if_pos rfl]
      intro hmem
      rcases hmem with _ | ⟨_, hmem⟩
      rcases hmem with _ | ⟨_, hmem⟩
      exact ih hmem
    · simp only [escape, if_neg hc]
      intro hmem
      rcases hmem with _ | ⟨_, hmem⟩
      · exact hc rfl
      · exact ih hmem

theorem escape_eq_nil (t : Str) (h : escape t = []) : t = [] := by
  cases t with
  | nil => rfl
  | cons c r =>
    by_cases hc : c = '\n' <;> simp [escape, hc] at h

theorem escape_cons_nl (t : Str) : escape ('\n' :: t) = '\\' :: 'n' :: escape t := by
  show (if ('\n' : Char) = '\n' then '\\' :: 'n' :: escape t else '\n' :: escape t) =
    '\\' :: 'n' :: escape t
  rw [if_pos rfl]

theorem escape_cons_other (c : Char) (t : Str) (h : c ≠ '\n') :
    escape (c :: t) = c :: escape t := by
  show (if c = '\n' then '\\' :: 'n' :: escape t else c :: escape t) = c :: escape t
  rw [if_neg h]

theorem escape_endsCR (v : Str) : endsCR (escape v) = endsCR v := by
  induction v with
  | nil => rfl
  | cons c t ih =>
    cases t with
    | nil =>
      by_cases hc : c = '\n'
      · subst hc
        decide
      · rw [escape_cons_other c [] hc]
        rfl
    | cons b t2 =>
      have hne : escape (b :: t2) ≠ [] :=
        fun hh => absurd (escape_eq_nil _ hh) (List.cons_ne_nil b t2)
      by_cases hc : c = '\n'
      · subst hc
        rw [escape_cons_nl]
        rw [endsCR_cons '\\' _ (by simp), endsCR_cons 'n' _ hne, endsCR_cons '\n' _ (by simp)]
        exact ih
      · rw [escape_cons_other c _ hc]
        rw [endsCR_cons c _ hne, endsCR_cons c (b :: t2) (by simp)]
        exact ih

theorem escape_cons_cases (t : Str) (d : Char) (r : Str) (h : escape t = d :: r) :
    (∃ t2, t = d :: t2 ∧ d ≠ '\n') ∨ (d = '\\' ∧ ∃ t2, t = '\n' :: t2) := by
  cases t with
  | nil => simp [escape] at h
  | cons e t2 =>
    by_cases he : e = '\n'
    · subst he
      simp only [escape] at h
      rw [if_pos trivial] at h
      injection h with h1 h2
      exact Or.inr ⟨h1.symm, t2, rfl⟩
    · simp only [escape] at h
      rw [if_neg he] at h
      injection h with h1 h2
      exact Or.inl ⟨t2, by rw [h1], h1 ▸ he⟩

theorem goContains_cons (c : Char) (t pat : Str) :
    goContains (c :: t) pat = (leadsWith pat (c :: t) || goContains t pat) := rfl

theorem unescape_escape : ∀ v : Str, goContains v ['\\', 'n'] = false → unescape (escape v) = v := by
  intro v
  induction v with
  | nil => intro _; rfl
  | cons c t ih =>
    intro h
    rw [goContains_cons, Bool.or_eq_false_iff] at h
    by_cases hc : c = '\n'
    · subst hc
      simp only [escape]
      rw [if_pos trivial]
      simp only [unescape]
      rw [if_pos ⟨trivial, trivial⟩, ih h.2]
    · simp only [escape]
      rw [if_neg hc]
      cases he : escape t with
      | nil =>
        have ht : t = [] := escape_eq_nil t he
        subst ht
        rfl
      | cons d r =>
        by_cases hdn : c = '\\' ∧ d = 'n'
        · exfalso
          rcases escape_cons_cases t d r he with ⟨t2, ht2, hdnl⟩ | ⟨hd, _, ht2⟩
          · have h1 := h.1
            rw [hdn.1, ht2, hdn.2] at h1
            simp [leadsWith] at h1
          · rw [hd] at hdn
            exact absurd hdn.2 (by decide)
        · simp only [unescape]
          rw [if_neg hdn, ← he, ih h.2]

/-! ## Lemmas about key parsing and entry validation -/

theorem strong_list_ind {α : Type} {P : List α → Prop}
    (step : ∀ L : List α, (∀ M : List α, M.length < L.length → P M) → P L) : ∀ L, P L := by
  have main : ∀ n (L : List α), L.length ≤ n → P L := by
    intro n
    induction n with
    | zero => exact fun L h => step L (fun M hM => absurd (Nat.lt_of_lt_of_le hM h) (by omega))
    | succ m ih => exact fun L hL => step L (fun M hM => ih M (by omega))
  exact fun L => main L.length L (Nat.le_refl _)

theorem lastSplitUnd_none (s : Str) (h : '_' ∉ s) : lastSplitUnd s = none := by
  induction s with
  | nil => rfl
  | cons c t ih =>
    have hc : c ≠ '_' := fun hh => h (hh ▸ List.mem_cons_self c t)
    have ht : '_' ∉ t := fun hh => h (List.mem_cons_of_mem c hh)
    rw [lastSplitUnd, ih ht, if_neg hc]

theorem lastSplitUnd_append (b s : Str) (h : '_' ∉ s) :
    lastSplitUnd (b ++ '_' :: s) = some (b, s) := by
  induction b with
  | nil =>
    show lastSplitUnd ('_' :: s) = some ([], s)
    rw [lastSplitUnd, lastSplitUnd_none s h, if_pos rfl]
  | cons c t ih =>
    show lastSplitUnd (c :: (t ++ '_' :: s)) = some (c :: t, s)
    rw [lastSplitUnd, ih]

theorem itoa_no_und (k : Int) : '_' ∉ itoa k :=
  fun h => ((itoa_chars k '_' h).1) rfl

theorem itoa_no_nl (k : Int) : '\n' ∉ itoa k :=
  fun h => ((itoa_chars k '\n' h).2.1) rfl

theorem itoa_no_cr (k : Int) : '\r' ∉ itoa k :=
  fun h => ((itoa_chars k '\r' h).2.2) rfl

theorem itoa_ne_nil (k : Int) : itoa k ≠ [] := by
  unfold itoa toDec
  split
  · simp
  · exact toDecFuel_ne_nil _ _ (by omega)

theorem parseBK_format (b : Str) (k : Int) :
    parseBucketAndKey (b ++ '_' :: itoa k) = some (b, k) := by
  rw [parseBucketAndKey, lastSplitUnd_append b (itoa k) (itoa_no_und k)]
  show (match atoi (itoa k) with | none => none | some k2 => some (b, k2)) = some (b, k)
  rw [atoi_itoa]

theorem validate_of_split (s : Str) (parts : List Str) (h : splitNL s = parts) :
    validateData s =
      (if parts.headD [] = strDel then
        (parts.length == 3) && (parts.getD 2 ['x']).isEmpty && checkKey (parts.getD 1 [])
      else if parts.headD [] = strSet then
        (parts.length == 4) && (parts.getD 3 ['x']).isEmpty && checkKey (parts.getD 1 [])
      else false) := by
  unfold validateData
  rw [h]

theorem splitNL_entry2 (hd K : Str) (hh : '\n' ∉ hd) (hK : '\n' ∉ K) :
    splitNL (hd ++ '\n' :: K ++ ['\n']) = [hd, K, []] := by
  unfold splitNL
  simp only [List.append_assoc, List.cons_append]
  rw [split_append_sep '\n' hd _ hh, split_append_sep '\n' K _ hK]
  rfl

theorem splitNL_entry3 (hd K V : Str) (hh : '\n' ∉ hd) (hK : '\n' ∉ K) (hV : '\n' ∉ V) :
    splitNL (hd ++ '\n' :: K ++ '\n' :: V ++ ['\n']) = [hd, K, V, []] := by
  unfold splitNL
  simp only [List.append_assoc, List.cons_append]
  rw [split_append_sep '\n' hd _ hh, split_append_sep '\n' K _ hK,
    split_append_sep '\n' V _ hV]
  rfl

theorem scanTokens_entry2 (hd K : Str) (hh : '\n' ∉ hd) (hK : '\n' ∉ K) :
    scanTokens (hd ++ '\n' :: K ++ ['\n']) = [hd, K] := by
  simp only [List.append_assoc, List.cons_append]
  rw [scanTokens_entry hd _ hh, scanTokens_entry K _ hK]
  rfl

theorem scanTokens_entry3 (hd K V : Str) (hh : '\n' ∉ hd) (hK : '\n' ∉ K) (hV : '\n' ∉ V) :
    scanTokens (hd ++ '\n' :: K ++ '\n' :: V ++ ['\n']) = [hd, K, V] := by
  simp only [List.append_assoc, List.cons_append]
  rw [scanTokens_entry hd _ hh, scanTokens_entry K _ hK, scanTokens_entry V _ hV]
  rfl

theorem nl_not_in_strSet : '\n' ∉ strSet := by decide

theorem nl_not_in_strDel : '\n' ∉ strDel := by decide

theorem strSet_ne_strDel : strSet ≠ strDel := by decide

theorem validate_parts3_set (s X : Str) (h3 : splitNL s = [strSet, X, []]) :
    validateData s = false := by
  rw [validate_of_split s _ h3]
  simp only [List.headD_cons, if_neg strSet_ne_strDel, if_pos rfl]
  simp [List.length_cons]

theorem validate_set_len (s : Str) (R : List Str) (hs : splitNL s = strSet :: R)
    (h : validateData s = true) : R.length = 3 := by
  rw [validate_of_split s _ hs] at h
  simp only [List.headD_cons, if_neg strSet_ne_strDel, eq_self_iff_true, if_true] at h
  rw [Bool.and_eq_true, Bool.and_eq_true] at h
  obtain ⟨⟨h2, _⟩, _⟩ := h
  simpa using h2

theorem validate_del_len (s : Str) (R : List Str) (hs : splitNL s = strDel :: R)
    (h : validateData s = true) : R.length = 2 := by
  rw [validate_of_split s _ hs] at h
  simp only [List.headD_cons, eq_self_iff_true, if_true] at h
  rw [Bool.and_eq_true, Bool.and_eq_true] at h
  obtain ⟨⟨h2, _⟩, _⟩ := h
  simpa using h2

/-! ## Shape lemmas for formatted commands -/

theorem strDel_ne_strSet : strDel ≠ strSet := by decide

theorem formatCommand_empty (cmd b : Str) (k : Int) :
    formatCommand cmd b k [] = cmd ++ '\n' :: (b ++ '_' :: itoa k) ++ ['\n'] := by
  unfold formatCommand
  rw [if_pos rfl]
  simp [List.append_assoc, List.cons_append]

theorem formatCommand_val (cmd b : Str) (k : Int) (v : Str) (hv : v ≠ []) :
    formatCommand cmd b k v = cmd ++ '\n' :: (b ++ '_' :: itoa k) ++ '\n' :: escape v ++ ['\n'] := by
  unfold formatCommand
  rw [if_neg hv]
  simp [List.append_assoc, List.cons_append]

theorem mkSet_eq (K V : Str) : mkSet K V = strSet ++ '\n' :: K ++ '\n' :: V ++ ['\n'] := rfl

theorem mkDel_eq (K : Str) : mkDel K = strDel ++ '\n' :: K ++ ['\n'] := rfl

theorem formatCommand_set_mkSet (b : Str) (k : Int) (v : Str) (hv : v ≠ []) :
    formatCommand strSet b k v = mkSet (b ++ '_' :: itoa k) (escape v) :=
  formatCommand_val strSet b k v hv

theorem formatCommand_del_mkDel (b : Str) (k : Int) :
    formatCommand strDel b k [] = mkDel (b ++ '_' :: itoa k) :=
  formatCommand_empty strDel b k

/-! ## Unfolding lemmas for the log walkers -/

theorem validLogB_set_cons (k v : Str) (rest : List Str) :
    validLogB (strSet :: k :: v :: rest) = (validateData (mkSet k v) && validLogB rest) := by
  simp [validLogB]

theorem validLogB_del_cons (k : Str) (rest : List Str) :
    validLogB (strDel :: k :: rest) = (validateData (mkDel k) && validLogB rest) := by
  cases rest with
  | nil => simp [validLogB, strDel_ne_strSet]
  | cons v rest2 => simp [validLogB, strDel_ne_strSet]

theorem scanValidate_set_cons (k v : Str) (rest : List Str) (n : Nat) :
    scanValidate (strSet :: k :: v :: rest) n =
      if validateData (mkSet k v) then scanValidate rest (n + 3) else .error (n + 3) := by
  simp [scanValidate]

theorem scanValidate_del_cons (k : Str) (rest : List Str) (n : Nat) :
    scanValidate (strDel :: k :: rest) n =
      if validateData (mkDel k) then scanValidate rest (n + 2) else .error (n + 2) := by
  cases rest with
  | nil => simp [scanValidate, strDel_ne_strSet]
  | cons v rest2 => simp [scanValidate, strDel_ne_strSet]

theorem scanValidate_other (l : Str) (rest : List Str) (n : Nat)
    (h1 : l ≠ strSet) (h2 : l ≠ strDel) : scanValidate (l :: rest) n = .error (n + 1) := by
  cases rest with
  | nil => simp [scanValidate, h1, h2]
  | cons k rest2 =>
    cases rest2 with
    | nil => simp [scanValidate, h1, h2]
    | cons v rest3 => simp [scanValidate, h1, h2]

theorem replay_single (i : Str) (idx : Index) (n : Nat) :
    replay [i] idx n = .error (.incomplete (n + 1)) := by
  simp [replay]

theorem replay_set_nil (K : Str) (idx : Index) (n : Nat) :
    replay [strSet, K] idx n = .error (.incompleteSet (n + 1)) := by
  simp [replay]

theorem replay_set_cons (K v : Str) (rest : List Str) (idx : Index) (n : Nat) :
    replay (strSet :: K :: v :: rest) idx n =
      (match parseBucketAndKey K with
      | none => .error (.badKeySet K)
      | some bk => replay rest (setKV idx bk.1 bk.2 (unescape v)) (n + 3)) := by
  simp [replay]

theorem replay_del_cons (K : Str) (rest : List Str) (idx : Index) (n : Nat) :
    replay (strDel :: K :: rest) idx n =
      (if hasJsonContent K then .error (.delFormat K (n + 1))
      else
        match parseBucketAndKey K with
        | none => .error (.badKeyDel K (n + 1))
        | some bk => replay rest (delCore idx bk.1 bk.2) (n + 2)) := by
  cases rest with
  | nil => simp [replay, strDel_ne_strSet]
  | cons v rest2 => simp [replay, strDel_ne_strSet]

theorem replay_other (i k : Str) (rest : List Str) (idx : Index) (n : Nat)
    (h1 : i ≠ strSet) (h2 : i ≠ strDel) :
    replay (i :: k :: rest) idx n = .error (.wrongInstr i (n + 1)) := by
  cases rest with
  | nil => simp [replay, h1, h2]
  | cons v rest2 => simp [replay, h1, h2]

/-! ## Composition lemmas for valid logs, the corruption scan and replay -/

theorem validLogB_append (L2 : List Str) : ∀ L1 : List Str,
    validLogB L1 = true → validLogB L2 = true → validLogB (L1 ++ L2) = true := by
  apply strong_list_ind
  intro L1 ih h1 h2
  cases L1 with
  | nil => simpa using h2
  | cons i rest =>
    by_cases hset : i = strSet
    · subst hset
      cases rest with
      | nil => simp [validLogB] at h1
      | cons k rest1 =>
        cases rest1 with
        | nil => simp [validLogB] at h1
        | cons v rest2 =>
          rw [validLogB_set_cons, Bool.and_eq_true] at h1
          show validLogB (strSet :: k :: v :: (rest2 ++ L2)) = true
          rw [validLogB_set_cons, Bool.and_eq_true]
          exact ⟨h1.1, ih rest2 (by simp; omega) h1.2 h2⟩
    · by_cases hdel : i = strDel
      · subst hdel
        cases rest with
        | nil => simp [validLogB, strDel_ne_strSet] at h1
        | cons k rest2 =>
          rw [validLogB_del_cons, Bool.and_eq_true] at h1
          show validLogB (strDel :: k :: (rest2 ++ L2)) = true
          rw [validLogB_del_cons, Bool.and_eq_true]
          exact ⟨h1.1, ih rest2 (by simp; omega) h1.2 h2⟩
      · exfalso
        cases rest with
        | nil => simp [validLogB, hset, hdel] at h1
        | cons k rest2 =>
          cases rest2 with
          | nil => simp [validLogB, hset, hdel] at h1
          | cons v rest3 => simp [validLogB, hset, hdel] at h1

theorem scanValidate_of_valid : ∀ L : List Str,
    validLogB L = true → ∀ n, scanValidate L n = .ok () := by
  apply strong_list_ind
  intro L ih h n
  cases L with
  | nil => rfl
  | cons i rest =>
    by_cases hset : i = strSet
    · subst hset
      cases rest with
      | nil => simp [validLogB] at h
      | cons k rest1 =>
        cases rest1 with
        | nil => simp [validLogB] at h
        | cons v rest2 =>
          rw [validLogB_set_cons, Bool.and_eq_true] at h
          rw [scanValidate_set_cons, if_pos h.1]
          exact ih rest2 (by simp; omega) h.2 (n + 3)
    · by_cases hdel : i = strDel
      · subst hdel
        cases rest with
        | nil => simp [validLogB, strDel_ne_strSet] at h
        | cons k rest2 =>
          rw [validLogB_del_cons, Bool.and_eq_true] at h
          rw [scanValidate_del_cons, if_pos h.1]
          exact ih rest2 (by simp; omega) h.2 (n + 2)
      · exfalso
        cases rest with
        | nil => simp [validLogB, hset, hdel] at h
        | cons k rest2 =>
          cases rest2 with
          | nil => simp [validLogB, hset, hdel] at h
          | cons v rest3 => simp [validLogB, hset, hdel] at h

theorem replay_set_parse (K v : Str) (rest : List Str) (idx : Index) (n : Nat) (b : Str)
    (kk : Int) (hp : parseBucketAndKey K = some (b, kk)) :
    replay (strSet :: K :: v :: rest) idx n =
      replay rest (setKV idx b kk (unescape v)) (n + 3) := by
  simp [replay_set_cons, hp]

theorem replay_set_badkey (K v : Str) (rest : List Str) (idx : Index) (n : Nat)
    (hp : parseBucketAndKey K = none) :
    replay (strSet :: K :: v :: rest) idx n = .error (.badKeySet K) := by
  simp [replay_set_cons, hp]

theorem replay_del_json (K : Str) (rest : List Str) (idx : Index) (n : Nat)
    (hj : hasJsonContent K = true) :
    replay (strDel :: K :: rest) idx n = .error (.delFormat K (n + 1)) := by
  simp [replay_del_cons, hj]

theorem replay_del_parse (K : Str) (rest : List Str) (idx : Index) (n : Nat) (b : Str)
    (kk : Int) (hj : hasJsonContent K = false) (hp : parseBucketAndKey K = some (b, kk)) :
    replay (strDel :: K :: rest) idx n = replay rest (delCore idx b kk) (n + 2) := by
  simp [replay_del_cons, hj, hp]

theorem replay_del_badkey (K : Str) (rest : List Str) (idx : Index) (n : Nat)
    (hj : hasJsonContent K = false) (hp : parseBucketAndKey K = none) :
    replay (strDel :: K :: rest) idx n = .error (.badKeyDel K (n + 1)) := by
  simp [replay_del_cons, hj, hp]

theorem replay_ok_irrel : ∀ L : List Str, ∀ idx n m j,
    replay L idx n = .ok j → replay L idx m = .ok j := by
  apply strong_list_ind
  intro L ih idx n m j h
  cases L with
  | nil =>
    simp only [replay] at h ⊢
    exact h
  | cons i rest =>
    cases rest with
    | nil =>
      rw [replay_single] at h
      simp at h
    | cons k rest2 =>
      by_cases hset : i = strSet
      · subst hset
        cases rest2 with
        | nil =>
          rw [replay_set_nil] at h
          simp at h
        | cons v rest3 =>
          cases hp : parseBucketAndKey k with
          | none =>
            rw [replay_set_badkey k v rest3 idx n hp] at h
            simp at h
          | some bk =>
            obtain ⟨b, kk⟩ := bk
            rw [replay_set_parse k v rest3 idx n b kk hp] at h
            rw [replay_set_parse k v rest3 idx m b kk hp]
            exact ih rest3 (by simp; omega) _ _ _ _ h
      · by_cases hdel : i = strDel
        · subst hdel
          cases hj : hasJsonContent k with
          | true =>
            rw [replay_del_json k rest2 idx n hj] at h
            simp at h
          | false =>
            cases hp : parseBucketAndKey k with
            | none =>
              rw [replay_del_badkey k rest2 idx n hj hp] at h
              simp at h
            | some bk =>
              obtain ⟨b, kk⟩ := bk
              rw [replay_del_parse k rest2 idx n b kk hj hp] at h
              rw [replay_del_parse k rest2 idx m b kk hj hp]
              exact ih rest2 (by simp; omega) _ _ _ _ h
        · rw [replay_other i k rest2 idx n hset hdel] at h
          simp at h

theorem replay_append : ∀ L1 : List Str, ∀ L2 idx n j,
    replay L1 idx n = .ok j → ∃ m, replay (L1 ++ L2) idx n = replay L2 j m := by
  apply strong_list_ind
  intro L1 ih L2 idx n j h
  cases L1 with
  | nil =>
    simp only [replay] at h
    injection h with h2
    subst h2
    exact ⟨n, by simp⟩
  | cons i rest =>
    cases rest with
    | nil =>
      rw [replay_single] at h
      simp at h
    | cons k rest2 =>
      by_cases hset : i = strSet
      · subst hset
        cases rest2 with
        | nil =>
          rw [replay_set_nil] at h
          simp at h
        | cons v rest3 =>
          cases hp : parseBucketAndKey k with
          | none =>
            rw [replay_set_badkey k v rest3 idx n hp] at h
            simp at h
          | some bk =>
            obtain ⟨b, kk⟩ := bk
            rw [replay_set_parse k v rest3 idx n b kk hp] at h
            obtain ⟨m2, hm⟩ := ih rest3 (by simp; omega) L2 _ _ _ h
            refine ⟨m2, ?_⟩
            show replay (strSet :: k :: v :: (rest3 ++ L2)) idx n = replay L2 j m2
            rw [replay_set_parse k v (rest3 ++ L2) idx n b kk hp]
            exact hm
      · by_cases hdel : i = strDel
        · subst hdel
          cases hj : hasJsonContent k with
          | true =>
            rw [replay_del_json k rest2 idx n hj] at h
            simp at h
          | false =>
            cases hp : parseBucketAndKey k with
            | none =>
              rw [replay_del_badkey k rest2 idx n hj hp] at h
              simp at h
            | some bk =>
              obtain ⟨b, kk⟩ := bk
              rw [replay_del_parse k rest2 idx n b kk hj hp] at h
              obtain ⟨m2, hm⟩ := ih rest2 (by simp; omega) L2 _ _ _ h
              refine ⟨m2, ?_⟩
              show replay (strDel :: k :: (rest2 ++ L2)) idx n = replay L2 j m2
              rw [replay_del_parse k (rest2 ++ L2) idx n b kk hj hp]
              exact hm
        · rw [replay_other i k rest2 idx n hset hdel] at h
          simp at h

theorem scan_replay_valid : ∀ L : List Str, ∀ n idx m j,
    scanValidate L n = .ok () → replay L idx m = .ok j → validLogB L = true := by
  apply strong_list_ind
  intro L ih n idx m j hs hr
  cases L with
  | nil => rfl
  | cons i rest =>
    cases rest with
    | nil =>
      rw [replay_single] at hr
      simp at hr
    | cons k rest2 =>
      by_cases hset : i = strSet
      · subst hset
        cases rest2 with
        | nil =>
          rw [replay_set_nil] at hr
          simp at hr
        | cons v rest3 =>
          cases hv : validateData (mkSet k v) with
          | false =>
            rw [scanValidate_set_cons, if_neg (by simp [hv])] at hs
            simp at hs
          | true =>
            rw [scanValidate_set_cons, if_pos hv] at hs
            cases hp : parseBucketAndKey k with
            | none =>
              rw [replay_set_badkey k v rest3 idx m hp] at hr
              simp at hr
            | some bk =>
              obtain ⟨b, kk⟩ := bk
              rw [replay_set_parse k v rest3 idx m b kk hp] at hr
              rw [validLogB_set_cons, Bool.and_eq_true]
              exact ⟨hv, ih rest3 (by simp; omega) _ _ _ _ hs hr⟩
      · by_cases hdel : i = strDel
        · subst hdel
          cases hv : validateData (mkDel k) with
          | false =>
            rw [scanValidate_del_cons, if_neg (by simp [hv])] at hs
            simp at hs
          | true =>
            rw [scanValidate_del_cons, if_pos hv] at hs
            cases hj : hasJsonContent k with
            | true =>
              rw [replay_del_json k rest2 idx m hj] at hr
              simp at hr
            | false =>
              cases hp : parseBucketAndKey k with
              | none =>
                rw [replay_del_badkey k rest2 idx m hj hp] at hr
                simp at hr
              | some bk =>
                obtain ⟨b, kk⟩ := bk
                rw [replay_del_parse k rest2 idx m b kk hj hp] at hr
                rw [validLogB_del_cons, Bool.and_eq_true]
                exact ⟨hv, ih rest2 (by simp; omega) _ _ _ _ hs hr⟩
        · rw [replay_other i k rest2 idx m hset hdel] at hr
          simp at hr

theorem openPersister_ok_of (c : Str) (idx : Index)
    (hs : scanValidate (linesOf c) 0 = .ok ())
    (hr : replay (linesOf c) [] 0 = .ok idx) :
    openPersister c = .ok ({ content := c, closed := false }, idx) := by
  unfold openPersister
  rw [hs, hr]

theorem openPersister_ok_valid (c : Str) (a : AOF) (idx : Index)
    (h : openPersister c = .ok (a, idx)) : validLogB (linesOf c) = true := by
  unfold openPersister at h
  cases hs : scanValidate (linesOf c) 0 with
  | error n =>
    rw [hs] at h
    simp at h
  | ok u =>
    cases u
    rw [hs] at h
    cases hr : replay (linesOf c) [] 0 with
    | error e =>
      rw [hr] at h
      simp at h
    | ok j => exact scan_replay_valid (linesOf c) 0 [] 0 j hs hr

/-! ## Compute lemmas for the store operations -/

theorem aofWrite_invalid (a : AOF) (lines : Str) (hv : validateData lines = false) :
    aofWrite a lines = .error .invalid := by
  simp [aofWrite, hv]

theorem aofWrite_closed (a : AOF) (lines : Str) (hv : validateData lines = true)
    (hc : a.closed = true) : aofWrite a lines = .error .io := by
  simp [aofWrite, hv, hc]

theorem aofWrite_ok (a : AOF) (lines : Str) (hv : validateData lines = true)
    (hc : a.closed = false) :
    aofWrite a lines = .ok { a with content := a.content ++ lines } := by
  simp [aofWrite, hv, hc]

theorem aofWrite_ok_inv (a : AOF) (lines : Str) (a2 : AOF)
    (h : aofWrite a lines = .ok a2) :
    validateData lines = true ∧ a.closed = false ∧
      a2 = { a with content := a.content ++ lines } := by
  unfold aofWrite at h
  by_cases hv : validateData lines = true
  · rw [if_pos hv] at h
    by_cases hc : a.closed = true
    · rw [if_pos hc] at h
      simp at h
    · rw [if_neg hc] at h
      injection h with h2
      exact ⟨hv, by simpa using hc, h2.symm⟩
  · rw [if_neg hv] at h
    simp at h

theorem dbSet_validFail (db : DB) (b : Str) (k : Int) (v : Str) (e : DBErr)
    (h : validateSetInput b k = some e) : DB.set db b k v = (db, some e) := by
  simp [DB.set, h]

theorem dbSet_writeFail (db : DB) (a : AOF) (b : Str) (k : Int) (v : Str) (e : WErr)
    (hv : validateSetInput b k = none) (ha : db.aof = some a)
    (hw : aofWrite a (formatCommand strSet b k v) = .error e) :
    DB.set db b k v = (db, some (.wErr e)) := by
  simp [DB.set, hv, ha, hw]

theorem dbSet_ok (db : DB) (a : AOF) (b : Str) (k : Int) (v : Str) (a2 : AOF)
    (hv : validateSetInput b k = none) (ha : db.aof = some a)
    (hw : aofWrite a (formatCommand strSet b k v) = .ok a2) :
    DB.set db b k v = ({ aof := some a2, keys := setKV db.keys b k v }, none) := by
  simp [DB.set, hv, ha, hw]

theorem dbSet_mem (db : DB) (b : Str) (k : Int) (v : Str)
    (hv : validateSetInput b k = none) (ha : db.aof = none) :
    DB.set db b k v = ({ db with keys := setKV db.keys b k v }, none) := by
  simp [DB.set, hv, ha]

theorem dbDel_noBucket (db : DB) (b : Str) (k : Int) (h : lookupB db.keys b = none) :
    DB.del db b k = (db, false, none) := by
  simp [DB.del, h]

theorem dbDel_noKey (db : DB) (b : Str) (k : Int) (m : BMap)
    (hb : lookupB db.keys b = some m) (hk : lookupK m k = none) :
    DB.del db b k = (db, false, none) := by
  simp [DB.del, hb, hk]

theorem dbDel_writeFail (db : DB) (a : AOF) (b : Str) (k : Int) (m : BMap) (v0 : Str)
    (e : WErr) (hb : lookupB db.keys b = some m) (hk : lookupK m k = some v0)
    (ha : db.aof = some a) (hw : aofWrite a (formatCommand strDel b k []) = .error e) :
    DB.del db b k = (db, false, some (.wErr e)) := by
  simp [DB.del, hb, hk, ha, hw]

theorem dbDel_ok (db : DB) (a : AOF) (b : Str) (k : Int) (m : BMap) (v0 : Str) (a2 : AOF)
    (hb : lookupB db.keys b = some m) (hk : lookupK m k = some v0)
    (ha : db.aof = some a) (hw : aofWrite a (formatCommand strDel b k []) = .ok a2) :
    DB.del db b k = ({ aof := some a2, keys := delCore db.keys b k }, true, none) := by
  simp [DB.del, hb, hk, ha, hw]

theorem dbDel_mem (db : DB) (b : Str) (k : Int) (m : BMap) (v0 : Str)
    (hb : lookupB db.keys b = some m) (hk : lookupK m k = some v0) (ha : db.aof = none) :
    DB.del db b k = ({ db with keys := delCore db.keys b k }, true, none) := by
  simp [DB.del, hb, hk, ha]

theorem validateSetInput_none (b : Str) (k : Int) (h : validateSetInput b k = none) :
    b ≠ [] ∧ ¬k < 0 := by
  unfold validateSetInput at h
  by_cases hb : b = []
  · rw [if_pos hb] at h
    simp at h
  · rw [if_neg hb] at h
    by_cases hk : k < 0
    · rw [if_pos hk] at h
      simp at h
    · exact ⟨hb, hk⟩

/-! ## The replay-fidelity invariant -/

/-- A log file is newline-terminated (or empty). -/
def NlTerm (c : Str) : Prop := c = [] ∨ ∃ d : Str, c = d ++ ['\n']

/-- Invariant tying a live file-backed store to its log: the file is open,
newline-terminated, grammatically valid, and replays to exactly the
in-memory index. -/
def DBInv (db : DB) : Prop :=
  ∃ a : AOF, db.aof = some a ∧ a.closed = false ∧ NlTerm a.content ∧
    validLogB (linesOf a.content) = true ∧
    replay (linesOf a.content) [] 0 = .ok db.keys

theorem scanTokens_append_nlterm (A B : Str) (h : NlTerm A) :
    scanTokens (A ++ B) = scanTokens A ++ scanTokens B := by
  rcases h with h | ⟨d, hd⟩
  · subst h
    simp [scanTokens]
  · subst hd
    exact scanTokens_append_term d B

theorem linesOf_append_nlterm (A B : Str) (h : NlTerm A) :
    linesOf (A ++ B) = linesOf A ++ linesOf B := by
  unfold linesOf
  rw [scanTokens_append_nlterm A B h, List.map_append]

theorem splitNL_sep (A R : Str) (h : '\n' ∉ A) : splitNL (A ++ '\n' :: R) = A :: splitNL R :=
  split_append_sep '\n' A R h

theorem mkSet_term (K V : Str) :
    mkSet K V = ((strSet ++ '\n' :: K) ++ '\n' :: V) ++ ['\n'] := rfl

theorem mkDel_term (K : Str) : mkDel K = (strDel ++ '\n' :: K) ++ ['\n'] := rfl

theorem mkDel_assoc (K : Str) : mkDel K = strDel ++ '\n' :: (K ++ ['\n']) := by
  simp [mkDel_eq, List.append_assoc, List.cons_append]

theorem NlTerm_append_entry (A Z : Str) : NlTerm (A ++ (Z ++ ['\n'])) :=
  Or.inr ⟨A ++ Z, (List.append_assoc A Z ['\n']).symm⟩

theorem linesOf_mkSet (K V : Str) (hK : '\n' ∉ K) (hV : '\n' ∉ V)
    (hKr : endsCR K = false) : linesOf (mkSet K V) = [strSet, K, dropCR V] := by
  unfold linesOf
  rw [show scanTokens (mkSet K V) = [strSet, K, V] from
    scanTokens_entry3 strSet K V nl_not_in_strSet hK hV]
  simp only [List.map_cons, List.map_nil]
  rw [dropCR_id strSet (by decide), dropCR_id K hKr]

theorem linesOf_mkSet_nocr (K V : Str) (hK : '\n' ∉ K) (hV : '\n' ∉ V)
    (hKr : endsCR K = false) (hVr : endsCR V = false) :
    linesOf (mkSet K V) = [strSet, K, V] := by
  rw [linesOf_mkSet K V hK hV hKr, dropCR_id V hVr]

theorem linesOf_mkDel (K : Str) (hK : '\n' ∉ K) (hKr : endsCR K = false) :
    linesOf (mkDel K) = [strDel, K] := by
  unfold linesOf
  rw [show scanTokens (mkDel K) = [strDel, K] from
    scanTokens_entry2 strDel K nl_not_in_strDel hK]
  simp only [List.map_cons, List.map_nil]
  rw [dropCR_id strDel (by decide), dropCR_id K hKr]

theorem key_no_nl (b : Str) (k : Int) (hb : '\n' ∉ b) : '\n' ∉ b ++ '_' :: itoa k := by
  intro h
  rcases List.mem_append.mp h with h | h
  · exact hb h
  · rcases List.mem_cons.mp h with h | h
    · exact absurd h (by decide)
    · exact itoa_no_nl k h

theorem key_no_cr (b : Str) (k : Int) : endsCR (b ++ '_' :: itoa k) = false := by
  rw [endsCR_append b _ (by simp), endsCR_cons '_' _ (itoa_ne_nil k)]
  exact endsCR_of_not_mem _ (itoa_no_cr k)

theorem validLogB_single_set (K V : Str) (h : validateData (mkSet K V) = true) :
    validLogB [strSet, K, V] = true := by
  rw [show ([strSet, K, V] : List Str) = strSet :: K :: V :: [] from rfl,
    validLogB_set_cons, h]
  rfl

theorem validLogB_single_del (K : Str) (h : validateData (mkDel K) = true) :
    validLogB [strDel, K] = true := by
  rw [show ([strDel, K] : List Str) = strDel :: K :: [] from rfl, validLogB_del_cons, h]
  rfl

theorem inv_set (db db' : DB) (b : Str) (k : Int) (v : Str)
    (hInv : DBInv db) (hgc : goContains v ['\\', 'n'] = false) (hb : '\n' ∉ b)
    (hcr : endsCR v = false)
    (hstep : DB.set db b k v = (db', none)) : DBInv db' := by
  obtain ⟨a, haof, hcl, hnt, hvl, hrep⟩ := hInv
  cases hvsi : validateSetInput b k with
  | some e =>
    rw [dbSet_validFail db b k v e hvsi] at hstep
    simp at hstep
  | none =>
    cases hw : aofWrite a (formatCommand strSet b k v) with
    | error e =>
      rw [dbSet_writeFail db a b k v e hvsi haof hw] at hstep
      simp at hstep
    | ok a2 =>
      rw [dbSet_ok db a b k v a2 hvsi haof hw] at hstep
      obtain ⟨hvd, _, ha2⟩ := aofWrite_ok_inv a _ a2 hw
      injection hstep with h1 h2
      subst h1
      have hK : '\n' ∉ b ++ '_' :: itoa k := key_no_nl b k hb
      by_cases hv0 : v = []
      · exfalso
        subst hv0
        rw [formatCommand_empty strSet b k] at hvd
        rw [validate_parts3_set _ _
          (splitNL_entry2 strSet (b ++ '_' :: itoa k) nl_not_in_strSet hK)] at hvd
        simp at hvd
      · have hfmt : formatCommand strSet b k v = mkSet (b ++ '_' :: itoa k) (escape v) :=
          formatCommand_set_mkSet b k v hv0
        rw [hfmt] at hvd ha2
        have hEV : '\n' ∉ escape v := escape_no_nl v
        have hEVr : endsCR (escape v) = false := by
          rw [escape_endsCR]
          exact hcr
        refine ⟨a2, rfl, ?_, ?_, ?_, ?_⟩
        · rw [ha2]
          exact hcl
        · rw [ha2]
          show NlTerm (a.content ++ mkSet (b ++ '_' :: itoa k) (escape v))
          rw [mkSet_term]
          exact NlTerm_append_entry a.content _
        · rw [ha2]
          show validLogB (linesOf (a.content ++ mkSet (b ++ '_' :: itoa k) (escape v))) = true
          rw [linesOf_append_nlterm _ _ hnt, linesOf_mkSet_nocr _ _ hK hEV (key_no_cr b k) hEVr]
          exact validLogB_append _ _ hvl (validLogB_single_set _ _ hvd)
        · rw [ha2]
          show replay (linesOf (a.content ++ mkSet (b ++ '_' :: itoa k) (escape v))) [] 0 =
            .ok (setKV db.keys b k v)
          rw [linesOf_append_nlterm _ _ hnt, linesOf_mkSet_nocr _ _ hK hEV (key_no_cr b k) hEVr]
          obtain ⟨m, hm⟩ :=
            replay_append (linesOf a.content) [strSet, b ++ '_' :: itoa k, escape v] [] 0
              db.keys hrep
          rw [hm,
            show ([strSet, b ++ '_' :: itoa k, escape v] : List Str) =
              strSet :: (b ++ '_' :: itoa k) :: escape v :: [] from rfl,
            replay_set_parse _ _ [] db.keys m b k (parseBK_format b k),
            unescape_escape v hgc]
          rfl

theorem inv_del (db db' : DB) (b : Str) (k : Int) (fnd : Bool)
    (hInv : DBInv db) (hj : hasJsonContent (b ++ '_' :: itoa k) = false)
    (hstep : DB.del db b k = (db', fnd, none)) : DBInv db' := by
  obtain ⟨a, haof, hcl, hnt, hvl, hrep⟩ := hInv
  cases hb0 : lookupB db.keys b with
  | none =>
    rw [dbDel_noBucket db b k hb0] at hstep
    injection hstep with h1 h2
    subst h1
    exact ⟨a, haof, hcl, hnt, hvl, hrep⟩
  | some m =>
    cases hk0 : lookupK m k with
    | none =>
      rw [dbDel_noKey db b k m hb0 hk0] at hstep
      injection hstep with h1 h2
      subst h1
      exact ⟨a, haof, hcl, hnt, hvl, hrep⟩
    | some v0 =>
      cases hw : aofWrite a (formatCommand strDel b k []) with
      | error e =>
        rw [dbDel_writeFail db a b k m v0 e hb0 hk0 haof hw] at hstep
        simp at hstep
      | ok a2 =>
        rw [dbDel_ok db a b k m v0 a2 hb0 hk0 haof hw] at hstep
        obtain ⟨hvd, _, ha2⟩ := aofWrite_ok_inv a _ a2 hw
        injection hstep with h1 h2
        subst h1
        rw [formatCommand_del_mkDel b k] at hvd ha2
        have hsplit : splitNL (mkDel (b ++ '_' :: itoa k)) =
            strDel :: splitNL ((b ++ '_' :: itoa k) ++ ['\n']) := by
          rw [mkDel_assoc]
          exact splitNL_sep strDel _ nl_not_in_strDel
        have hlen := validate_del_len _ _ hsplit hvd
        have hK : '\n' ∉ b ++ '_' :: itoa k := by
          unfold splitNL at hlen
          have hc := split_length '\n' ((b ++ '_' :: itoa k) ++ ['\n'])
          rw [List.count_append] at hc
          have h1 : (['\n'] : Str).count '\n' = 1 := by decide
          apply List.count_eq_zero.mp
          omega
        refine ⟨a2, rfl, ?_, ?_, ?_, ?_⟩
        · rw [ha2]
          exact hcl
        · rw [ha2]
          show NlTerm (a.content ++ mkDel (b ++ '_' :: itoa k))
          rw [mkDel_term]
          exact NlTerm_append_entry a.content _
        · rw [ha2]
          show validLogB (linesOf (a.content ++ mkDel (b ++ '_' :: itoa k))) = true
          rw [linesOf_append_nlterm _ _ hnt, linesOf_mkDel _ hK (key_no_cr b k)]
          exact validLogB_append _ _ hvl (validLogB_single_del _ hvd)
        · rw [ha2]
          show replay (linesOf (a.content ++ mkDel (b ++ '_' :: itoa k))) [] 0 =
            .ok (delCore db.keys b k)
          rw [linesOf_append_nlterm _ _ hnt, linesOf_mkDel _ hK (key_no_cr b k)]
          obtain ⟨m2, hm⟩ :=
            replay_append (linesOf a.content) [strDel, b ++ '_' :: itoa k] [] 0 db.keys hrep
          rw [hm,
            show ([strDel, b ++ '_' :: itoa k] : List Str) =
              strDel :: (b ++ '_' :: itoa k) :: [] from rfl,
            replay_del_parse _ [] db.keys m2 b k hj (parseBK_format b k)]
          rfl

theorem applyOps_inv : ∀ (ops : List Op) (db db' : DB), DBInv db →
    (∀ op ∈ ops, okOp op = true) → applyOps db ops = (db', none) → DBInv db' := by
  intro ops
  induction ops with
  | nil =>
    intro db db' hInv hok happ
    simp [applyOps] at happ
    exact happ ▸ hInv
  | cons op t ih =>
    intro db db' hInv hok happ
    cases hap : applyOp db op with
    | mk db2 oe =>
      cases oe with
      | none =>
        have happ2 : applyOps db2 t = (db', none) := by
          simp only [applyOps, hap] at happ
          exact happ
        have hinv2 : DBInv db2 := by
          cases op with
          | set b k v =>
            have hparts := hok _ (List.mem_cons_self _ _)
            unfold okOp at hparts
            rw [Bool.and_eq_true, Bool.and_eq_true] at hparts
            have hgc : goContains v ['\\', 'n'] = false := by simpa using hparts.1.1
            have hb : '\n' ∉ b := of_decide_eq_true hparts.1.2
            have hcr : endsCR v = false := by simpa using hparts.2
            exact inv_set db db2 b k v hInv hgc hb hcr (by simpa [applyOp] using hap)
          | del b k =>
            have hj0 := hok _ (List.mem_cons_self _ _)
            unfold okOp at hj0
            have hj : hasJsonContent (b ++ '_' :: itoa k) = false := by simpa using hj0
            cases hr : DB.del db b k with
            | mk rdb rr =>
              cases rr with
              | mk rfnd rerr =>
                have hap2 : (rdb, rerr) = (db2, none) := by
                  rw [show applyOp db (.del b k) =
                    ((DB.del db b k).1, (DB.del db b k).2.2) from rfl, hr] at hap
                  exact hap
                injection hap2 with ha1 ha2
                subst ha1
                subst ha2
                exact inv_del db rdb b k rfnd hInv hj hr
        exact ih db2 db' hinv2 (fun op2 hm => hok op2 (List.mem_cons_of_mem _ hm)) happ2
      | some e =>
        exfalso
        simp only [applyOps, hap] at happ
        simp at happ

theorem initFileDB_inv : DBInv initFileDB :=
  ⟨{ content := [], closed := false }, rfl, rfl, Or.inl rfl, rfl, rfl⟩

theorem reopen_of_inv (db1 : DB) (h : DBInv db1) :
    openPersister (contentOf (DB.close db1).1) =
      .ok (AOF.mk (contentOf db1) false, db1.keys) := by
  obtain ⟨a, haof, hcl, hnt, hvl, hrep⟩ := h
  have hco : contentOf (DB.close db1).1 = a.content := by
    simp [DB.close, haof, hcl, contentOf]
  have hco1 : contentOf db1 = a.content := by
    simp [contentOf, haof]
  rw [hco, hco1]
  exact openPersister_ok_of a.content db1.keys (scanValidate_of_valid _ hvl 0) hrep

/-! ## Defrag output characterization -/

/-- Log lines `writeFile` emits for one bucket, as the scanner reads them
back (a trailing carriage return of a value is stripped by `ScanLines`). -/
def bucketLines (b : Str) (m : BMap) : List Str :=
  m.flatMap (fun kv => [strSet, b ++ '_' :: itoa kv.1, dropCR kv.2])

/-- Log lines `writeFile` emits for the whole snapshot: one three-line
`set` record per live record, no `del` records. -/
def defragLines (idx : Index) : List Str :=
  idx.flatMap (fun p => bucketLines p.1 p.2)

theorem rawEntry_eq (b : Str) (k : Int) (v : Str) :
    strSet ++ '\n' :: b ++ '_' :: itoa k ++ '\n' :: v ++ ['\n'] =
      mkSet (b ++ '_' :: itoa k) v := by
  simp [mkSet_eq, List.append_assoc, List.cons_append]

theorem mkSet_assoc (K V : Str) :
    mkSet K V = strSet ++ '\n' :: (K ++ '\n' :: (V ++ ['\n'])) := by
  simp [mkSet_eq, List.append_assoc, List.cons_append]

theorem validate_mkSet_lines (K V : Str) (h : validateData (mkSet K V) = true) :
    '\n' ∉ K ∧ '\n' ∉ V := by
  have hsplit : splitNL (mkSet K V) = strSet :: splitNL (K ++ '\n' :: (V ++ ['\n'])) := by
    rw [mkSet_assoc]
    exact splitNL_sep strSet _ nl_not_in_strSet
  have hlen := validate_set_len _ _ hsplit h
  unfold splitNL at hlen
  have hc := split_length '\n' (K ++ '\n' :: (V ++ ['\n']))
  rw [List.count_append, List.count_cons, List.count_append] at hc
  have h1 : (['\n'] : Str).count '\n' = 1 := by decide
  simp [h1] at hc
  constructor <;> apply List.count_eq_zero.mp <;> omega

theorem writeBucket_lines (b : Str) : ∀ (m : BMap) (a a2 : AOF),
    writeBucket a b m = .ok a2 → NlTerm a.content →
    linesOf a2.content = linesOf a.content ++ bucketLines b m ∧ NlTerm a2.content := by
  intro m
  induction m with
  | nil =>
    intro a a2 h hn
    simp only [writeBucket] at h
    injection h with h1
    subst h1
    exact ⟨by simp [bucketLines], hn⟩
  | cons kv t ih =>
    intro a a2 h hn
    cases hw : aofWrite a (strSet ++ '\n' :: b ++ '_' :: itoa kv.1 ++ '\n' :: kv.2 ++ ['\n']) with
    | error e =>
      simp only [writeBucket, hw] at h
      simp at h
    | ok a3 =>
      simp only [writeBucket, hw] at h
      obtain ⟨hvd, hcl, ha3⟩ := aofWrite_ok_inv _ _ _ hw
      rw [rawEntry_eq b kv.1 kv.2] at hvd ha3
      obtain ⟨hK, hV⟩ := validate_mkSet_lines _ _ hvd
      have hn3 : NlTerm a3.content := by
        rw [ha3, mkSet_term]
        exact NlTerm_append_entry _ _
      obtain ⟨hl, hnt2⟩ := ih a3 a2 h hn3
      refine ⟨?_, hnt2⟩
      rw [hl, ha3]
      show linesOf (a.content ++ mkSet (b ++ '_' :: itoa kv.1) kv.2) ++ bucketLines b t = _
      rw [linesOf_append_nlterm _ _ hn, linesOf_mkSet _ _ hK hV (key_no_cr b kv.1)]
      simp [bucketLines, List.append_assoc]

theorem writeRecs_lines : ∀ (idx : Index) (a a2 : AOF),
    writeRecs a idx = .ok a2 → NlTerm a.content →
    linesOf a2.content = linesOf a.content ++ defragLines idx ∧ NlTerm a2.content := by
  intro idx
  induction idx with
  | nil =>
    intro a a2 h hn
    simp only [writeRecs] at h
    injection h with h1
    subst h1
    exact ⟨by simp [defragLines], hn⟩
  | cons bm rest ih =>
    intro a a2 h hn
    cases hwb : writeBucket a bm.1 bm.2 with
    | error e =>
      simp only [writeRecs, hwb] at h
      simp at h
    | ok a3 =>
      simp only [writeRecs, hwb] at h
      obtain ⟨hl3, hn3⟩ := writeBucket_lines bm.1 bm.2 a a3 hwb hn
      obtain ⟨hl, hnt2⟩ := ih a3 a2 h hn3
      refine ⟨?_, hnt2⟩
      rw [hl, hl3]
      simp [defragLines, List.append_assoc]

theorem bucketLines_length (b : Str) (m : BMap) :
    (bucketLines b m).length = 3 * m.length := by
  induction m with
  | nil => rfl
  | cons kv t ih =>
    simp only [bucketLines, List.flatMap_cons] at ih ⊢
    simp [ih]
    omega

theorem defragLines_length (idx : Index) :
    (defragLines idx).length = 3 * sizeIdx idx := by
  induction idx with
  | nil => rfl
  | cons bm rest ih =>
    simp only [defragLines, List.flatMap_cons] at ih ⊢
    simp [ih, bucketLines_length, sizeIdx]
    omega

theorem dbDefrag_memory (db : DB) (ha : db.aof = none) : DB.defrag db = .nilDeref := by
  simp [DB.defrag, ha]

theorem dbDefrag_closed (db : DB) (a : AOF) (ha : db.aof = some a) (hc : a.closed = true) :
    DB.defrag db = .fail .closeFail := by
  simp [DB.defrag, aofDefrag, ha, hc]

theorem dbDefrag_writeErr (db : DB) (a : AOF) (e : WErr) (ha : db.aof = some a)
    (hc : a.closed = false)
    (hw : writeRecs { content := [], closed := false } db.keys = .error e) :
    DB.defrag db = .fail (.writeFail e) := by
  simp [DB.defrag, aofDefrag, ha, hc, hw]

theorem dbDefrag_okC (db : DB) (a a2 : AOF) (ha : db.aof = some a) (hc : a.closed = false)
    (hw : writeRecs { content := [], closed := false } db.keys = .ok a2) :
    DB.defrag db = .ok { aof := some a2, keys := db.keys } := by
  simp [DB.defrag, aofDefrag, ha, hc, hw]

theorem dbDefrag_ok_inv (db db' : DB) (h : DB.defrag db = .ok db') :
    ∃ a a2, db.aof = some a ∧ a.closed = false ∧
      writeRecs { content := [], closed := false } db.keys = .ok a2 ∧
      db' = { aof := some a2, keys := db.keys } := by
  cases haof : db.aof with
  | none =>
    rw [dbDefrag_memory db haof] at h
    simp at h
  | some a =>
    cases hcl : a.closed with
    | true =>
      rw [dbDefrag_closed db a haof hcl] at h
      simp at h
    | false =>
      cases hwr : writeRecs { content := [], closed := false } db.keys with
      | error e =>
        rw [dbDefrag_writeErr db a e haof hcl hwr] at h
        simp at h
      | ok a2 =>
        rw [dbDefrag_okC db a a2 haof hcl hwr] at h
        injection h with h1
        exact ⟨a, a2, rfl, hcl, rfl, h1.symm⟩

/-! ## Reachable index states -/

/-- Index states reachable through the code's two mutation primitives:
the empty index at open, `setKV` (used by `DB.Set` and replayed `set`
entries) and `delCore` (used by `DB.Del` and replayed `del` entries). -/
inductive ReachableIdx : Index → Prop where
  | init : ReachableIdx []
  | setStep (b : Str) (k : Int) (v : Str) {i : Index} :
      ReachableIdx i → ReachableIdx (setKV i b k v)
  | delStep (b : Str) (k : Int) {i : Index} :
      ReachableIdx i → ReachableIdx (delCore i b k)

/-- Every bucket present in the index is nonempty. -/
def goodIdx (idx : Index) : Bool := idx.all (fun p => !p.2.isEmpty)

theorem goodIdx_filter (idx : Index) (p : Str × BMap → Bool) (h : goodIdx idx = true) :
    goodIdx (idx.filter p) = true := by
  rw [goodIdx, List.all_eq_true] at h ⊢
  intro q hq
  exact h q (List.mem_of_mem_filter hq)

theorem goodIdx_setKV (idx : Index) (b : Str) (k : Int) (v : Str)
    (h : goodIdx idx = true) : goodIdx (setKV idx b k v) = true := by
  unfold setKV updateB setIn
  rw [goodIdx, List.all_eq_true]
  intro q hq
  rcases List.mem_cons.mp hq with hq | hq
  · subst hq
    simp
  · have := goodIdx_filter idx (fun p => decide (p.1 ≠ b)) h
    rw [goodIdx, List.all_eq_true] at this
    exact this q hq

theorem delCore_noBucket (idx : Index) (b : Str) (k : Int) (h : lookupB idx b = none) :
    delCore idx b k = idx := by
  unfold delCore
  split
  · rfl
  next m2 heq =>
    rw [h] at heq
    cases heq

theorem delCore_empty (idx : Index) (b : Str) (k : Int) (m : BMap)
    (hb : lookupB idx b = some m) (hm : m.filter (fun p => p.1 ≠ k) = []) :
    delCore idx b k = eraseB idx b := by
  unfold delCore
  split
  next heq =>
    rw [hb] at heq
    cases heq
  next m2 heq =>
    rw [hb] at heq
    injection heq with heq2
    subst heq2
    show (if m.filter (fun p => p.1 ≠ k) = [] then eraseB idx b
      else updateB idx b (m.filter (fun p => p.1 ≠ k))) = eraseB idx b
    rw [if_pos hm]

theorem delCore_some (idx : Index) (b : Str) (k : Int) (m : BMap)
    (hb : lookupB idx b = some m) (hm : ¬m.filter (fun p => p.1 ≠ k) = []) :
    delCore idx b k = updateB idx b (m.filter (fun p => p.1 ≠ k)) := by
  unfold delCore
  split
  next heq =>
    rw [hb] at heq
    cases heq
  next m2 heq =>
    rw [hb] at heq
    injection heq with heq2
    subst heq2
    show (if m.filter (fun p => p.1 ≠ k) = [] then eraseB idx b
      else updateB idx b (m.filter (fun p => p.1 ≠ k))) =
      updateB idx b (m.filter (fun p => p.1 ≠ k))
    rw [if_neg hm]

theorem goodIdx_delCore (idx : Index) (b : Str) (k : Int)
    (h : goodIdx idx = true) : goodIdx (delCore idx b k) = true := by
  cases hb : lookupB idx b with
  | none => rw [delCore_noBucket idx b k hb]; exact h
  | some m =>
    by_cases hm : m.filter (fun p => p.1 ≠ k) = []
    · rw [delCore_empty idx b k m hb hm]
      exact goodIdx_filter idx _ h
    · rw [delCore_some idx b k m hb hm]
      unfold updateB
      rw [goodIdx, List.all_eq_true]
      intro q hq
      rcases List.mem_cons.mp hq with hq | hq
      · subst hq
        simpa using hm
      · have := goodIdx_filter idx (fun p => decide (p.1 ≠ b)) h
        rw [goodIdx, List.all_eq_true] at this
        exact this q hq

theorem reachable_good : ∀ i : Index, ReachableIdx i → goodIdx i = true := by
  intro i h
  induction h with
  | init => rfl
  | setStep b k v _ ih => exact goodIdx_setKV _ b k v ih
  | delStep b k _ ih => exact goodIdx_delCore _ b k ih

theorem replay_reach : ∀ L : List Str, ∀ i n j,
    ReachableIdx i → replay L i n = .ok j → ReachableIdx j := by
  apply strong_list_ind
  intro L ih i n j hreach h
  cases L with
  | nil =>
    simp only [replay] at h
    injection h with h1
    exact h1 ▸ hreach
  | cons instr rest =>
    cases rest with
    | nil =>
      rw [replay_single] at h
      simp at h
    | cons k rest2 =>
      by_cases hset : instr = strSet
      · subst hset
        cases rest2 with
        | nil =>
          rw [replay_set_nil] at h
          simp at h
        | cons v rest3 =>
          cases hp : parseBucketAndKey k with
          | none =>
            rw [replay_set_badkey k v rest3 i n hp] at h
            simp at h
          | some bk =>
            obtain ⟨b, kk⟩ := bk
            rw [replay_set_parse k v rest3 i n b kk hp] at h
            exact ih rest3 (by simp; omega) _ _ _ (ReachableIdx.setStep b kk _ hreach) h
      · by_cases hdel : instr = strDel
        · subst hdel
          cases hj : hasJsonContent k with
          | true =>
            rw [replay_del_json k rest2 i n hj] at h
            simp at h
          | false =>
            cases hp : parseBucketAndKey k with
            | none =>
              rw [replay_del_badkey k rest2 i n hj hp] at h
              simp at h
            | some bk =>
              obtain ⟨b, kk⟩ := bk
              rw [replay_del_parse k rest2 i n b kk hj hp] at h
              exact ih rest2 (by simp; omega) _ _ _ (ReachableIdx.delStep b kk hreach) h
        · rw [replay_other instr k rest2 i n hset hdel] at h
          simp at h

theorem getKV_setKV (idx : Index) (b : Str) (k : Int) (v : Str) :
    getKV (setKV idx b k v) b k = some v := by
  unfold getKV setKV updateB setIn
  simp [lookupB, lookupK]

/-! ## The claims -/

/-- C1 (amended).  Replay fidelity for a file-backed store: starting from a
store opened on a fresh log (`initFileDB`), after any finite sequence of
successful `Set`/`Del` operations in which no stored value contains the
two-character sequence backslash-n or ends in a carriage return (the
scanner strips a carriage return standing before the newline), no stored
bucket name contains a newline, and no `Del` is applied to a record whose
log key field contains a brace, a quote, the sequence quote-colon-quote,
or the substrings `set` or `del` (`okOp`), closing the store and
reopening the resulting log file succeeds and yields exactly the index
held immediately before close — the same buckets, keys and byte-identical
values.  (`DB.close` leaves the file contents untouched, so the reopened
persister reads `contentOf` of the closed store.) -/
theorem replay_fidelity (ops : List Op) (db1 : DB)
    (hok : ∀ op ∈ ops, okOp op = true)
    (happ : applyOps initFileDB ops = (db1, none)) :
    openPersister (contentOf (DB.close db1).1) =
      .ok (AOF.mk (contentOf db1) false, db1.keys) :=
  reopen_of_inv db1 (applyOps_inv ops initFileDB db1 initFileDB_inv hok happ)

/-- Witness for C1: one successful `Set` on a fresh file-backed store,
closed and reopened. -/
theorem replay_fidelity_witness :
    openPersister (contentOf (DB.close (applyOps initFileDB [Op.set ['b'] 1 ['v']]).1).1) =
      .ok (AOF.mk (contentOf (applyOps initFileDB [Op.set ['b'] 1 ['v']]).1) false,
        (applyOps initFileDB [Op.set ['b'] 1 ['v']]).1.keys) :=
  replay_fidelity [Op.set ['b'] 1 ['v']] (applyOps initFileDB [Op.set ['b'] 1 ['v']]).1
    (by decide) (by decide)

/-- Counterexample to C1 as stated, in two parts.  `Set("b", 1, "\\n")`
(a value holding a literal backslash and `n`) succeeds, but after close
and reopen the replayed index holds a real newline instead; and
`Set("b", 1, "x\r")` (a value ending in a carriage return) succeeds, but
the scanner strips the carriage return on reopen, so the replayed value
is `"x"`.  In both cases the reopened index is not byte-identical to the
index before close. -/
theorem replay_fidelity_counterexample :
    (applyOps initFileDB [Op.set ['b'] 1 ['\\', 'n']]).2 = none ∧
    (applyOps initFileDB [Op.set ['b'] 1 ['\\', 'n']]).1.keys = [(['b'], [(1, ['\\', 'n'])])] ∧
    openPersister (contentOf (DB.close (applyOps initFileDB [Op.set ['b'] 1 ['\\', 'n']]).1).1) =
      .ok (AOF.mk ['s', 'e', 't', '\n', 'b', '_', '1', '\n', '\\', 'n', '\n'] false,
        [(['b'], [(1, ['\n'])])]) ∧
    ¬([(['b'], [(1, ['\n'])])] : Index) =
      (applyOps initFileDB [Op.set ['b'] 1 ['\\', 'n']]).1.keys ∧
    (applyOps initFileDB [Op.set ['b'] 1 ['x', '\r']]).2 = none ∧
    (applyOps initFileDB [Op.set ['b'] 1 ['x', '\r']]).1.keys = [(['b'], [(1, ['x', '\r'])])] ∧
    openPersister (contentOf (DB.close (applyOps initFileDB [Op.set ['b'] 1 ['x', '\r']]).1).1) =
      .ok (AOF.mk ['s', 'e', 't', '\n', 'b', '_', '1', '\n', 'x', '\r', '\n'] false,
        [(['b'], [(1, ['x'])])]) ∧
    ¬([(['b'], [(1, ['x'])])] : Index) =
      (applyOps initFileDB [Op.set ['b'] 1 ['x', '\r']]).1.keys := by
  decide

/-- C2.  After a `Defrag` that returns success, the rewritten log holds
exactly one three-line `set` record per live record of the snapshot and no
`del` records (`defragLines`), and its total line count is exactly three
times the number of live records. -/
theorem defrag_minimal_log (db db' : DB) (h : DB.defrag db = .ok db') :
    linesOf (contentOf db') = defragLines db.keys ∧
    (linesOf (contentOf db')).length = 3 * sizeIdx db.keys := by
  obtain ⟨a, a2, haof, hcl, hwr, hdb'⟩ := dbDefrag_ok_inv db db' h
  obtain ⟨hl, _⟩ :=
    writeRecs_lines db.keys { content := [], closed := false } a2 hwr (Or.inl rfl)
  have hc : contentOf db' = a2.content := by
    rw [hdb']
    rfl
  constructor
  · rw [hc, hl]
    simp [linesOf, scanTokens]
  · rw [hc, hl]
    simp [linesOf, scanTokens, defragLines_length]

/-- Witness for C2: a two-record store (one record with an empty value)
defragmented successfully. -/
theorem defrag_minimal_log_witness :
    linesOf (contentOf (DB.mk
      (some (AOF.mk ['s', 'e', 't', '\n', 'b', '_', '1', '\n', 'u', '\n',
        's', 'e', 't', '\n', 'a', '_', '2', '\n', '\n'] false))
      [(['b'], [(1, ['u'])]), (['a'], [(2, [])])])) =
      defragLines [(['b'], [(1, ['u'])]), (['a'], [(2, [])])] ∧
    (linesOf (contentOf (DB.mk
      (some (AOF.mk ['s', 'e', 't', '\n', 'b', '_', '1', '\n', 'u', '\n',
        's', 'e', 't', '\n', 'a', '_', '2', '\n', '\n'] false))
      [(['b'], [(1, ['u'])]), (['a'], [(2, [])])]))).length =
      3 * sizeIdx [(['b'], [(1, ['u'])]), (['a'], [(2, [])])] :=
  defrag_minimal_log
    (DB.mk (some (AOF.mk ['o', 'l', 'd', '\n'] false))
      [(['b'], [(1, ['u'])]), (['a'], [(2, [])])])
    (DB.mk (some (AOF.mk ['s', 'e', 't', '\n', 'b', '_', '1', '\n', 'u', '\n',
        's', 'e', 't', '\n', 'a', '_', '2', '\n', '\n'] false))
      [(['b'], [(1, ['u'])]), (['a'], [(2, [])])])
    (by decide)

/-- C3 (amended).  Escaping on write followed by unescaping on read is a
byte-exact round trip for every value that neither contains the
two-character sequence backslash-n nor ends in a carriage return — in
particular any value containing literal newlines round-trips — and
consequently any such value stored by `Set` under a newline-free bucket
on a file-backed store satisfying the replay invariant is returned
byte-exact by `Get` after a close/reopen cycle: reopening succeeds with
the pre-close index, in which the record holds exactly the stored
bytes. -/
theorem escape_roundtrip (v : Str) (h1 : goContains v ['\\', 'n'] = false)
    (h2 : endsCR v = false) :
    unescape (escape v) = v ∧
    ∀ (db db1 : DB) (b : Str) (k : Int), DBInv db → '\n' ∉ b →
      DB.set db b k v = (db1, none) →
      openPersister (contentOf (DB.close db1).1) =
        .ok (AOF.mk (contentOf db1) false, db1.keys) ∧
      getKV db1.keys b k = some v := by
  refine ⟨unescape_escape v h1, ?_⟩
  intro db db1 b k hInv hb hstep
  refine ⟨reopen_of_inv db1 (inv_set db db1 b k v hInv h1 hb h2 hstep), ?_⟩
  obtain ⟨a, haof, hcl, hnt, hvl, hrep⟩ := hInv
  cases hvsi : validateSetInput b k with
  | some e =>
    rw [dbSet_validFail db b k v e hvsi] at hstep
    simp at hstep
  | none =>
    cases hw : aofWrite a (formatCommand strSet b k v) with
    | error e =>
      rw [dbSet_writeFail db a b k v e hvsi haof hw] at hstep
      simp at hstep
    | ok a2 =>
      rw [dbSet_ok db a b k v a2 hvsi haof hw] at hstep
      injection hstep with hdb1 h2
      subst hdb1
      exact getKV_setKV db.keys b k v

/-- Witness for C3: the value `"a\nb"` (a literal newline inside) stored
under bucket `"b"` at key 1 on a fresh file-backed store round-trips
through escape/unescape and through a close/reopen cycle. -/
theorem escape_roundtrip_witness :
    unescape (escape ['a', '\n', 'b']) = ['a', '\n', 'b'] ∧
    (openPersister (contentOf (DB.close (DB.mk
        (some (AOF.mk ['s', 'e', 't', '\n', 'b', '_', '1', '\n', 'a', '\\', 'n', 'b', '\n'] false))
        [(['b'], [(1, ['a', '\n', 'b'])])])).1) =
      .ok (AOF.mk (contentOf (DB.mk
        (some (AOF.mk ['s', 'e', 't', '\n', 'b', '_', '1', '\n', 'a', '\\', 'n', 'b', '\n'] false))
        [(['b'], [(1, ['a', '\n', 'b'])])])) false,
        (DB.mk
        (some (AOF.mk ['s', 'e', 't', '\n', 'b', '_', '1', '\n', 'a', '\\', 'n', 'b', '\n'] false))
        [(['b'], [(1, ['a', '\n', 'b'])])]).keys) ∧
      getKV (DB.mk
        (some (AOF.mk ['s', 'e', 't', '\n', 'b', '_', '1', '\n', 'a', '\\', 'n', 'b', '\n'] false))
        [(['b'], [(1, ['a', '\n', 'b'])])]).keys ['b'] 1 = some ['a', '\n', 'b']) :=
  ⟨(escape_roundtrip ['a', '\n', 'b'] (by decide) (by decide)).1,
    (escape_roundtrip ['a', '\n', 'b'] (by decide) (by decide)).2 initFileDB
      (DB.mk
        (some (AOF.mk ['s', 'e', 't', '\n', 'b', '_', '1', '\n', 'a', '\\', 'n', 'b', '\n'] false))
        [(['b'], [(1, ['a', '\n', 'b'])])]) ['b'] 1 initFileDB_inv (by decide) (by decide)⟩

/-- Counterexample to C3 as stated, in two parts.  The two-byte value
backslash-n does not round-trip through escape/unescape — unescaping its
escaped form yields a single newline.  And the end-to-end clause fails
for a value ending in a carriage return: `Set("b", 1, "x\r")` on a fresh
file-backed store succeeds, yet after close and reopen the record holds
`"x"` — the scanner strips the carriage return — so the value is not
returned byte-exact by `Get`. -/
theorem escape_roundtrip_counterexample :
    ¬unescape (escape ['\\', 'n']) = ['\\', 'n'] ∧
    (DB.set initFileDB ['b'] 1 ['x', '\r']).2 = none ∧
    openPersister (contentOf (DB.close (DB.set initFileDB ['b'] 1 ['x', '\r']).1).1) =
      .ok (AOF.mk ['s', 'e', 't', '\n', 'b', '_', '1', '\n', 'x', '\r', '\n'] false,
        [(['b'], [(1, ['x'])])]) ∧
    ¬getKV ([(['b'], [(1, ['x'])])] : Index) ['b'] 1 = some ['x', '\r'] := by
  decide

/-- C4 (amended).  If the log violates the protocol grammar (`validLogB`:
a sequence of complete `set`/`del` records each passing `validateData`),
then `OpenPersister` aborts with an error — no persister or index is
returned — and whenever the violation is caught by the corruption scan,
the error is the corruption error carrying the offending line number.
(A final record truncated by end-of-file slips past the scan, padded with
empty reads, and aborts open during replay instead — see the
counterexample.) -/
theorem corrupt_open_aborts (c : Str) (hv : validLogB (linesOf c) = false) :
    (∃ e, openPersister c = .error e) ∧
    (∀ n, scanValidate (linesOf c) 0 = .error n → openPersister c = .error (.corrupted n)) := by
  constructor
  · cases hop : openPersister c with
    | error e => exact ⟨e, rfl⟩
    | ok pair =>
      obtain ⟨a, idx⟩ := pair
      have := openPersister_ok_valid c a idx hop
      rw [this] at hv
      simp at hv
  · intro n hn
    unfold openPersister
    rw [hn]

/-- Witness for C4: a log whose first line is not an instruction aborts
open with the corruption error naming line 1. -/
theorem corrupt_open_aborts_witness :
    validLogB (linesOf ['z', 'z', '\n']) = false ∧
    openPersister ['z', 'z', '\n'] = .error (.corrupted 1) :=
  ⟨by decide, (corrupt_open_aborts ['z', 'z', '\n'] (by decide)).2 1 (by decide)⟩

/-- Counterexample to C4 as stated: a log holding a `set` keyword and a key
line but no value line violates the grammar, yet open aborts with the
replay error `incomplete set instruction`, not the corruption error — the
scan validates the truncated record against empty padding lines and
passes. -/
theorem corrupt_open_aborts_counterexample :
    validLogB (linesOf ['s', 'e', 't', '\n', 'b', '_', '1', '\n']) = false ∧
    openPersister ['s', 'e', 't', '\n', 'b', '_', '1', '\n'] =
      .error (.replayFail (.incompleteSet 1)) ∧
    isCorrupted (openPersister ['s', 'e', 't', '\n', 'b', '_', '1', '\n']) = false := by
  decide

/-- C5.  Log-then-index ordering: when the persister's append (or its
validation) fails on a file-backed `Set`, or on a `Del` of an existing
record, the call returns an error and the store — index and log alike —
is left completely unchanged. -/
theorem log_then_index :
    (∀ (db : DB) (a : AOF) (b : Str) (k : Int) (v : Str) (e : WErr),
      db.aof = some a → aofWrite a (formatCommand strSet b k v) = .error e →
      (DB.set db b k v).1 = db ∧ (DB.set db b k v).2.isSome = true) ∧
    (∀ (db : DB) (a : AOF) (b : Str) (k : Int) (m : BMap) (v0 : Str) (e : WErr),
      db.aof = some a → lookupB db.keys b = some m → lookupK m k = some v0 →
      aofWrite a (formatCommand strDel b k []) = .error e →
      (DB.del db b k).1 = db ∧ (DB.del db b k).2.1 = false ∧
        (DB.del db b k).2.2.isSome = true) := by
  constructor
  · intro db a b k v e ha hw
    cases hvsi : validateSetInput b k with
    | some e2 =>
      rw [dbSet_validFail db b k v e2 hvsi]
      simp
    | none =>
      rw [dbSet_writeFail db a b k v e hvsi ha hw]
      simp
  · intro db a b k m v0 e ha hb hk hw
    rw [dbDel_writeFail db a b k m v0 e hb hk ha hw]
    simp

/-- Witness for C5: a store whose file is already closed rejects both a
`Set` and a `Del` of an existing record, leaving the store unchanged. -/
theorem log_then_index_witness :
    ((DB.set (DB.mk (some (AOF.mk [] true)) [(['b'], [(1, ['v'])])]) ['b'] 2 ['w']).1 =
        DB.mk (some (AOF.mk [] true)) [(['b'], [(1, ['v'])])] ∧
      (DB.set (DB.mk (some (AOF.mk [] true)) [(['b'], [(1, ['v'])])]) ['b'] 2 ['w']).2.isSome =
        true) ∧
    ((DB.del (DB.mk (some (AOF.mk [] true)) [(['b'], [(1, ['v'])])]) ['b'] 1).1 =
        DB.mk (some (AOF.mk [] true)) [(['b'], [(1, ['v'])])] ∧
      (DB.del (DB.mk (some (AOF.mk [] true)) [(['b'], [(1, ['v'])])]) ['b'] 1).2.1 = false ∧
      (DB.del (DB.mk (some (AOF.mk [] true)) [(['b'], [(1, ['v'])])]) ['b'] 1).2.2.isSome =
        true) :=
  ⟨log_then_index.1 (DB.mk (some (AOF.mk [] true)) [(['b'], [(1, ['v'])])])
      (AOF.mk [] true) ['b'] 2 ['w'] .io rfl (by decide),
    log_then_index.2 (DB.mk (some (AOF.mk [] true)) [(['b'], [(1, ['v'])])])
      (AOF.mk [] true) ['b'] 1 [(1, ['v'])] ['v'] .io rfl (by decide) (by decide) (by decide)⟩

/-- C6.  `Set` rejects an empty bucket name or a negative key as an input
error, changing neither the index nor the log. -/
theorem set_input_rejected (db : DB) (b : Str) (k : Int) (v : Str) (h : b = [] ∨ k < 0) :
    (DB.set db b k v).1 = db ∧ (DB.set db b k v).2.isSome = true := by
  cases hvsi : validateSetInput b k with
  | some e =>
    rw [dbSet_validFail db b k v e hvsi]
    simp
  | none =>
    exfalso
    obtain ⟨hb, hk⟩ := validateSetInput_none b k hvsi
    rcases h with h | h
    · exact hb h
    · exact hk h

/-- Witness for C6: `Set(bucket, -1, value)` fails and changes nothing. -/
theorem set_input_rejected_witness :
    (DB.set initFileDB ['b'] (-1) ['v']).1 = initFileDB ∧
    (DB.set initFileDB ['b'] (-1) ['v']).2.isSome = true :=
  set_input_rejected initFileDB ['b'] (-1) ['v'] (Or.inr (by decide))

/-- C7.  For every non-empty bucket name (underscores allowed) and every
non-negative key, parsing the log key field built by `formatCommand` —
the bucket and the decimal key joined by an underscore — recovers exactly
the bucket and the key, because `parseBucketAndKey` splits at the last
underscore. -/
theorem bucket_key_roundtrip (b : Str) (k : Int) (hb : b ≠ []) (hk : 0 ≤ k) :
    parseBucketAndKey (b ++ '_' :: itoa k) = some (b, k) :=
  parseBK_format b k

/-- Witness for C7: a bucket name containing underscores. -/
theorem bucket_key_roundtrip_witness :
    (['a', '_', 'b'] : Str) ≠ [] ∧ (0 : Int) ≤ 7 ∧
    parseBucketAndKey (['a', '_', 'b'] ++ '_' :: itoa 7) = some (['a', '_', 'b'], 7) :=
  ⟨by decide, by decide, bucket_key_roundtrip ['a', '_', 'b'] 7 (by decide) (by decide)⟩

/-- C8.  In every index state reachable from the empty index through the
code's mutation primitives — `setKV` (used by `Set` and by replayed `set`
entries) and `delCore` (used by `Del` and by replayed `del` entries) —
every bucket present holds at least one key (`goodIdx`); and replaying any
log fragment keeps the index within the reachable states, so the
invariant also holds for every index produced by `Open`. -/
theorem buckets_never_empty :
    (∀ i : Index, ReachableIdx i → goodIdx i = true) ∧
    (∀ (L : List Str) (i : Index) (n : Nat) (j : Index),
      ReachableIdx i → replay L i n = .ok j → ReachableIdx j) :=
  ⟨reachable_good, replay_reach⟩

/-- Witness for C8: a one-record index is reachable and well-formed, and
replaying a `del` entry for its only record yields the (reachable) empty
index — the emptied bucket is removed. -/
theorem buckets_never_empty_witness :
    goodIdx (setKV [] ['b'] 1 ['v']) = true ∧
    ReachableIdx (delCore (setKV [] ['b'] 1 ['v']) ['b'] 1) :=
  ⟨buckets_never_empty.1 (setKV [] ['b'] 1 ['v'])
      (ReachableIdx.setStep ['b'] 1 ['v'] ReachableIdx.init),
    buckets_never_empty.2 [strDel, ['b', '_', '1']] (setKV [] ['b'] 1 ['v']) 0
      (delCore (setKV [] ['b'] 1 ['v']) ['b'] 1)
      (ReachableIdx.setStep ['b'] 1 ['v'] ReachableIdx.init) (by decide)⟩

/-- C9.  `Defrag` on a store opened with the `:memory:` sentinel calls the
persister through a nil pointer without a nil check — the call panics with
a nil-pointer dereference instead of returning an error to the caller. -/
theorem defrag_memory_panics : DB.defrag memoryDB = .nilDeref := rfl

/-- C10 (amended).  On a file-backed store, `Set` with a zero-length value
fails and leaves the store unchanged for every bucket name free of
newlines (the formatted entry omits the value line and is rejected by the
grammar); on a memory-only store the same call succeeds and stores the
empty value. -/
theorem empty_value_set :
    (∀ (db : DB) (a : AOF) (b : Str) (k : Int), db.aof = some a → '\n' ∉ b →
      (DB.set db b k []).1 = db ∧ (DB.set db b k []).2.isSome = true) ∧
    (∀ (keys : Index) (b : Str) (k : Int), b ≠ [] → 0 ≤ k →
      DB.set { aof := none, keys := keys } b k [] =
        ({ aof := none, keys := setKV keys b k [] }, none) ∧
      getKV (setKV keys b k []) b k = some []) := by
  constructor
  · intro db a b k ha hb
    cases hvsi : validateSetInput b k with
    | some e =>
      rw [dbSet_validFail db b k [] e hvsi]
      simp
    | none =>
      have hvd : validateData (formatCommand strSet b k []) = false := by
        rw [formatCommand_empty strSet b k]
        exact validate_parts3_set _ _
          (splitNL_entry2 strSet (b ++ '_' :: itoa k) nl_not_in_strSet (key_no_nl b k hb))
      rw [dbSet_writeFail db a b k [] .invalid hvsi ha (aofWrite_invalid a _ hvd)]
      simp
  · intro keys b k hb hk
    have hv : validateSetInput b k = none := by
      unfold validateSetInput
      rw [if_neg hb, if_neg (by omega)]
    exact ⟨dbSet_mem { aof := none, keys := keys } b k [] hv rfl, getKV_setKV keys b k []⟩

/-- Witness for C10: the empty value is rejected on a fresh file-backed
store and accepted (and readable) on a memory store. -/
theorem empty_value_set_witness :
    ((DB.set initFileDB ['b'] 1 []).1 = initFileDB ∧
      (DB.set initFileDB ['b'] 1 []).2.isSome = true) ∧
    (DB.set { aof := none, keys := ([] : Index) } ['b'] 1 [] =
        ({ aof := none, keys := setKV [] ['b'] 1 [] }, none) ∧
      getKV (setKV [] ['b'] 1 []) ['b'] 1 = some []) :=
  ⟨empty_value_set.1 initFileDB (AOF.mk [] false) ['b'] 1 rfl (by decide),
    empty_value_set.2 [] ['b'] 1 (by decide) (by decide)⟩

/-- Counterexample to C10 as stated: with a bucket name containing a
newline, `Set` with a zero-length value on a file-backed store succeeds —
the mangled entry happens to pass the grammar — and appends to the log,
so the file-backed half of the claim does not hold for every bucket. -/
theorem empty_value_set_counterexample :
    (DB.set initFileDB ['x', '_', '1', '\n', 'y'] 5 []).2 = none ∧
    getKV (DB.set initFileDB ['x', '_', '1', '\n', 'y'] 5 []).1.keys
      ['x', '_', '1', '\n', 'y'] 5 = some [] ∧
    ¬contentOf (DB.set initFileDB ['x', '_', '1', '\n', 'y'] 5 []).1 = contentOf initFileDB := by
  decide
